/-
  Verification of the Randezvous compiler passes (ARM backend hardening).

  This development gives a shallow embedding, in Lean 4, of the algorithms in
  the Randezvous LLVM passes:

  * ARMRandezvousCDLA.cpp  — control-data leakage analysis
      (isReallyAddressTaken, canSpillLinkRegister, determineLeakability,
       runOnModule statistics collection);
  * ARMRandezvousGDLR.cpp  — global data layout randomization
      (classification of globals, budgeted garbage-object insertion,
       trap-block etching);
  * ARMRandezvousLGPromote.cpp — local-to-global promotion of
      function-pointer-holding allocas;
  * ARMRandezvousICallLimiter.cpp — indirect-call register limiting.

  Machine integers (uint64_t / size_t) are modeled as Nat.  The GDLR code
  masks its random weights with 0xffffffff (with the source comment
  "Prevent overflow") precisely so that the products computed below stay far
  from 2^64 for realistic capacities (the configured capacities default to a
  few megabytes), so no modular reduction is applied in the embedding except
  for the explicit masks present in the source.

  Names follow the C++ sources wherever Lean allows.
-/
import Mathlib

namespace Randezvous

namespace CDLA

/-- The ARM link register (LR); holds the return address. -/
def LR : Nat := 14

/--
Instructions relevant to `canSpillLinkRegister`'s scan of a function body
(ARMRandezvousCDLA.cpp, lines 218-255).  A `tTAILJMPd`/`tTAILJMPdND` whose
operand is a global is modeled with its callee already resolved through
aliases and ifuncs (the source's `getBaseObject` loop) to a function index.
-/
inductive TInst where
  | tailJmpGlobal (callee : Nat)
  | tailJmpSym
  | tailJmpReg
  | other
deriving DecidableEq, Repr

/--
The slice of a MachineFunction that `canSpillLinkRegister` reads: whether
`MachineFrameInfo::isCalleeSavedInfoValid` holds, the callee-saved register
numbers, and the instruction stream of all basic blocks in layout order.
-/
structure MFunc where
  csiValid : Bool
  csRegs : List Nat
  insts : List TInst
deriving DecidableEq, Repr

/-- A Function: external/declared-only functions have no MachineFunction. -/
structure Func where
  mf : Option MFunc
deriving DecidableEq, Repr

/-- `MachineModuleInfo::getMachineFunction`: `none` models a null result. -/
def getMF (env : List Func) (f : Nat) : Option MFunc :=
  match env.get? f with
  | some fn => fn.mf
  | none => none

/--
`ARMRandezvousCDLA::canSpillLinkRegister` (ARMRandezvousCDLA.cpp, lines
192-258).  The C++ recursion along tail-call edges has no memo table; the
embedding bounds it with fuel and answers `true` (the conservative value used
throughout the source) when the fuel runs out.
-/
def canSpillLinkRegister (env : List Func) : Nat → Nat → Bool
  | 0, _ => true
  | fuel + 1, f =>
    match getMF env f with
    | none => true
    | some mf =>
      if !mf.csiValid then true
      else if mf.csRegs.contains LR then true
      else mf.insts.any fun i =>
        match i with
        | TInst.tailJmpGlobal callee => canSpillLinkRegister env fuel callee
        | TInst.tailJmpSym => true
        | TInst.tailJmpReg => true
        | TInst.other => false

end CDLA

namespace LGP

/--
LLVM types as seen by ARMRandezvousLGPromote.cpp: a pointer (with a flag
recording whether its element type `isFunctionTy()`), an array, a struct, or
any other (scalar) type.
-/
inductive LType where
  | ptr (pointeeIsFunc : Bool)
  | array (n : Nat) (elem : LType)
  | struct (elems : List LType)
  | scalar

/--
Constants produced by `createNonZeroInitializerFor`: the non-zero sentinel
`ConstantExpr::getIntToPtr(i32 1, Ty)`, a null value, and aggregates.
-/
inductive Const where
  | intToPtrOne
  | zero
  | arr (elems : List Const)
  | strct (elems : List Const)

mutual

/-- `containsFunctionPointerType` (ARMRandezvousLGPromote.cpp, lines 57-80). -/
def containsFunctionPointerType : LType → Bool
  | .ptr pointeeIsFunc => pointeeIsFunc
  | .array _ elem => containsFunctionPointerType elem
  | .struct elems => anyContainsFunctionPointerType elems
  | .scalar => false

/-- The `for (Type * ElementTy : StructTy->elements())` loop of
`containsFunctionPointerType`. -/
def anyContainsFunctionPointerType : List LType → Bool
  | [] => false
  | t :: ts => containsFunctionPointerType t || anyContainsFunctionPointerType ts

end

mutual

/-- `createNonZeroInitializerFor` (ARMRandezvousLGPromote.cpp, lines 96-125).
Note that the source inserts the non-zero sentinel at **every** pointer
subfield, whether or not its pointee type is a function type. -/
def createNonZeroInitializerFor : LType → Const
  | .ptr _ => .intToPtrOne
  | .array n elem => .arr (List.replicate n (createNonZeroInitializerFor elem))
  | .struct elems => .strct (createNonZeroInitializerList elems)
  | .scalar => .zero

/-- The struct-element loop of `createNonZeroInitializerFor`. -/
def createNonZeroInitializerList : List LType → List Const
  | [] => []
  | t :: ts => createNonZeroInitializerFor t :: createNonZeroInitializerList ts

end

mutual

/-- The leaf (non-aggregate) subfields of a type, in field order. -/
def flattenTy : LType → List LType
  | .ptr b => [.ptr b]
  | .array n elem => (List.replicate n (flattenTy elem)).flatten
  | .struct elems => flattenTyList elems
  | .scalar => [.scalar]

def flattenTyList : List LType → List LType
  | [] => []
  | t :: ts => flattenTy t ++ flattenTyList ts

end

mutual

/-- The leaf subfields of a constant, `true` marking a non-zero leaf. -/
def flattenConst : Const → List Bool
  | .intToPtrOne => [true]
  | .zero => [false]
  | .arr elems => flattenConstList elems
  | .strct elems => flattenConstList elems

def flattenConstList : List Const → List Bool
  | [] => []
  | c :: cs => flattenConst c ++ flattenConstList cs

end

/-- Whether a leaf subfield is function-pointer-shaped. -/
def isFnPtrLeaf : LType → Bool
  | .ptr b => b
  | _ => false

/-- Whether a leaf subfield is pointer-shaped (of any pointee type). -/
def isPtrLeaf : LType → Bool
  | .ptr _ => true
  | _ => false

/-- An `AllocaInst` as read by the pass: its allocated type, whether
`isStaticAlloca()` holds, and its alignment. -/
structure AllocaRec where
  ty : LType
  isStatic : Bool
  align : Nat

/-- A function in the call graph: its allocas (in block/instruction order)
and its call-graph successors, by function index. -/
structure FuncLG where
  allocas : List AllocaRec
  callees : List Nat

/-- A global variable created by the pass. -/
structure GlobalLG where
  ty : LType
  align : Nat
  init : Const

/-- Call-graph successors of a function index. -/
def calleesOf (env : List FuncLG) (a : Nat) : List Nat :=
  match env.get? a with
  | some fn => fn.callees
  | none => []

/-- The call-graph edge relation. -/
def Edge (env : List FuncLG) (a b : Nat) : Prop :=
  b ∈ calleesOf env a

/-- Insert an element into a list if not already present (set union step). -/
def insertNew (acc : List Nat) (b : Nat) : List Nat :=
  if b ∈ acc then acc else acc ++ [b]

/-- One closure step: add all call-graph successors of members of `s`. -/
def stepClose (env : List FuncLG) (s : List Nat) : List Nat :=
  s.foldl (fun acc a => (calleesOf env a).foldl insertNew acc) s

/-- Iterate `stepClose` until a fixpoint (or the fuel runs out). -/
def closeFuel (env : List FuncLG) : Nat → List Nat → List Nat
  | 0, s => s
  | k + 1, s =>
    let s' := stepClose env s
    if s' = s then s else closeFuel env k s'

/-- Enough fuel to saturate any closure: every node ever added is a callee
entry of some function of `env`. -/
def closureBound (env : List FuncLG) : Nat :=
  (env.flatMap FuncLG.callees).length + 1

/-- Transitive closure of the callees of `f`. -/
def reachSet (env : List FuncLG) (f : Nat) : List Nat :=
  closeFuel env (closureBound env) (calleesOf env f).dedup

/--
Models `scc_iterator<CallGraph *>::hasCycle()` for the SCC containing `f`
(ARMRandezvousLGPromote.cpp, line 159): the SCC of `f` contains a cycle
(more than one node, or a self edge) exactly when `f` lies on a nonempty
call-graph cycle, i.e. when `f` is reachable from its own callees.
-/
def sccHasCycle (env : List FuncLG) (f : Nat) : Bool :=
  decide (f ∈ reachSet env f)

/-- Whether an alloca is promoted (ARMRandezvousLGPromote.cpp, line 181). -/
def promotable (a : AllocaRec) : Bool :=
  a.isStatic && containsFunctionPointerType a.ty

/--
The per-function body of `ARMRandezvousLGPromote::runOnModule`
(ARMRandezvousLGPromote.cpp, lines 157-194): functions whose SCC has a cycle
are skipped; otherwise each static alloca containing a function pointer is
replaced by a fresh global of the same type and alignment, initialized by
`createNonZeroInitializerFor`, and erased from the function.
-/
def promoteFunc (env : List FuncLG) (i : Nat) (f : FuncLG) :
    FuncLG × List GlobalLG :=
  if sccHasCycle env i then (f, [])
  else
    ({ f with allocas := f.allocas.filter fun a => !promotable a },
     (f.allocas.filter promotable).map fun a =>
       ⟨a.ty, a.align, createNonZeroInitializerFor a.ty⟩)

/-- A module for LGPromote: functions plus module-level globals. -/
structure ModuleLG where
  funcs : List FuncLG
  globals : List GlobalLG

/-- `ARMRandezvousLGPromote::runOnModule` over a whole module.  The SCC
iteration order of the source only affects the order in which independent
per-function rewrites happen, so the module result is the per-function
rewrite applied everywhere, with the created globals appended. -/
def runOnModuleLGP (enable : Bool) (M : ModuleLG) : ModuleLG :=
  if !enable then M
  else
    let results := (List.range M.funcs.length).map fun i =>
      promoteFunc M.funcs i (M.funcs.getD i ⟨[], []⟩)
    { funcs := results.map Prod.fst,
      globals := M.globals ++ (results.map Prod.snd).flatten }

/-! Properties of the call-graph closure used to model `scc_iterator`. -/

theorem mem_insertNew {acc : List Nat} {b x : Nat} :
    x ∈ insertNew acc b ↔ x ∈ acc ∨ x = b := by
  by_cases h : b ∈ acc
  · simp only [insertNew, if_pos h]
    exact ⟨Or.inl, fun hx => hx.elim id fun e => e ▸ h⟩
  · simp [insertNew, if_neg h]

theorem mem_foldl_insertNew {x : Nat} :
    ∀ (l acc : List Nat), x ∈ l.foldl insertNew acc ↔ x ∈ acc ∨ x ∈ l := by
  intro l
  induction l with
  | nil => simp
  | cons b l ih =>
    intro acc
    rw [List.foldl_cons, ih, mem_insertNew]
    simp [or_assoc]

theorem mem_stepClose {env : List FuncLG} {s : List Nat} {x : Nat} :
    x ∈ stepClose env s ↔ x ∈ s ∨ ∃ a ∈ s, x ∈ calleesOf env a := by
  unfold stepClose
  suffices h : ∀ (l acc : List Nat),
      x ∈ l.foldl (fun acc a => (calleesOf env a).foldl insertNew acc) acc ↔
        x ∈ acc ∨ ∃ a ∈ l, x ∈ calleesOf env a by
    exact h s s
  intro l
  induction l with
  | nil => simp
  | cons a l ih =>
    intro acc
    rw [List.foldl_cons, ih, mem_foldl_insertNew]
    simp only [List.mem_cons, or_assoc]
    constructor
    · rintro (h | h | ⟨a', ha', hx⟩)
      · exact Or.inl h
      · exact Or.inr ⟨a, Or.inl rfl, h⟩
      · exact Or.inr ⟨a', Or.inr ha', hx⟩
    · rintro (h | ⟨a', ha' | ha', hx⟩)
      · exact Or.inl h
      · exact Or.inr (Or.inl (ha' ▸ hx))
      · exact Or.inr (Or.inr ⟨a', ha', hx⟩)

theorem foldl_extend {g : List Nat → Nat → List Nat}
    (hg : ∀ acc a, ∃ t, g acc a = acc ++ t) :
    ∀ (l acc : List Nat), ∃ t, l.foldl g acc = acc ++ t := by
  intro l
  induction l with
  | nil => exact fun acc => ⟨[], (List.append_nil acc).symm⟩
  | cons a l ih =>
    intro acc
    obtain ⟨t0, h0⟩ := hg acc a
    obtain ⟨t, ht⟩ := ih (g acc a)
    exact ⟨t0 ++ t, by rw [List.foldl_cons, ht, h0, List.append_assoc]⟩

theorem insertNew_extend (acc : List Nat) (b : Nat) :
    ∃ t, insertNew acc b = acc ++ t := by
  by_cases h : b ∈ acc
  · exact ⟨[], by simp [insertNew, if_pos h]⟩
  · exact ⟨[b], by simp [insertNew, if_neg h]⟩

theorem stepClose_extend (env : List FuncLG) (s : List Nat) :
    ∃ t, stepClose env s = s ++ t :=
  foldl_extend
    (fun acc a => foldl_extend insertNew_extend (calleesOf env a) acc) s s

theorem nodup_insertNew {acc : List Nat} (h : acc.Nodup) (b : Nat) :
    (insertNew acc b).Nodup := by
  by_cases hb : b ∈ acc
  · simpa [insertNew, if_pos hb] using h
  · simp [insertNew, if_neg hb, List.nodup_append, h, hb]

theorem nodup_foldl_insertNew :
    ∀ (l acc : List Nat), acc.Nodup → (l.foldl insertNew acc).Nodup := by
  intro l
  induction l with
  | nil => exact fun acc h => h
  | cons b l ih => exact fun acc h => ih _ (nodup_insertNew h b)

theorem nodup_stepClose {env : List FuncLG} {s : List Nat} (h : s.Nodup) :
    (stepClose env s).Nodup := by
  unfold stepClose
  suffices hgen : ∀ (l acc : List Nat), acc.Nodup →
      (l.foldl (fun acc a => (calleesOf env a).foldl insertNew acc) acc).Nodup by
    exact hgen s s h
  intro l
  induction l with
  | nil => exact fun acc h => h
  | cons a l ih => exact fun acc h => ih _ (nodup_foldl_insertNew _ _ h)

/-- All call-graph targets that can ever be added by the closure. -/
def allCallees (env : List FuncLG) : List Nat :=
  env.flatMap FuncLG.callees

theorem calleesOf_subset_allCallees (env : List FuncLG) (a : Nat) :
    calleesOf env a ⊆ allCallees env := by
  intro x hx
  unfold calleesOf at hx
  cases hget : env.get? a with
  | none => rw [hget] at hx; cases hx
  | some fn =>
    rw [hget] at hx
    exact List.mem_flatMap.mpr ⟨fn, List.get?_mem hget, hx⟩

/-- A set of nodes closed under the call-graph successor relation. -/
def IsCGClosed (env : List FuncLG) (s : List Nat) : Prop :=
  ∀ a ∈ s, ∀ b ∈ calleesOf env a, b ∈ s

theorem closed_of_stepClose_eq {env : List FuncLG} {s : List Nat}
    (h : stepClose env s = s) : IsCGClosed env s := by
  intro a ha b hb
  have : b ∈ stepClose env s := mem_stepClose.mpr (Or.inr ⟨a, ha, hb⟩)
  rwa [h] at this

theorem subset_closeFuel (env : List FuncLG) :
    ∀ (k : Nat) (s : List Nat), s ⊆ closeFuel env k s := by
  intro k
  induction k with
  | zero => exact fun s => List.Subset.refl s
  | succ k ih =>
    intro s
    show s ⊆ (if stepClose env s = s then s else closeFuel env k (stepClose env s))
    by_cases h : stepClose env s = s
    · rw [if_pos h]
      exact List.Subset.refl s
    · rw [if_neg h]
      obtain ⟨t, ht⟩ := stepClose_extend env s
      exact fun x hx => ih (stepClose env s) (ht ▸ List.mem_append_left t hx)

theorem closed_closeFuel (env : List FuncLG) :
    ∀ (k : Nat) (s : List Nat), s.Nodup → s ⊆ allCallees env →
      (allCallees env).dedup.length < k + s.length →
      IsCGClosed env (closeFuel env k s) := by
  intro k
  induction k with
  | zero =>
    intro s hnd hsub hlen
    have hsub' : s ⊆ (allCallees env).dedup :=
      fun x hx => List.mem_dedup.mpr (hsub hx)
    have : s.length ≤ (allCallees env).dedup.length :=
      (hnd.subperm hsub').length_le
    omega
  | succ k ih =>
    intro s hnd hsub hlen
    show IsCGClosed env
      (if stepClose env s = s then s else closeFuel env k (stepClose env s))
    by_cases h : stepClose env s = s
    · rw [if_pos h]
      exact closed_of_stepClose_eq h
    · rw [if_neg h]
      obtain ⟨t, ht⟩ := stepClose_extend env s
      have htne : t ≠ [] := by
        intro he
        exact h (by rw [ht, he, List.append_nil])
      have hlen' : s.length + 1 ≤ (stepClose env s).length := by
        rw [ht, List.length_append]
        have : 0 < t.length := List.length_pos.mpr htne
        omega
      refine ih (stepClose env s) (nodup_stepClose hnd) ?_ (by omega)
      intro x hx
      rcases mem_stepClose.mp hx with h' | ⟨a, _, h'⟩
      · exact hsub h'
      · exact calleesOf_subset_allCallees env a h'

theorem closed_reachSet (env : List FuncLG) (f : Nat) :
    IsCGClosed env (reachSet env f) := by
  apply closed_closeFuel
  · exact List.nodup_dedup _
  · exact fun x hx =>
      calleesOf_subset_allCallees env f (List.mem_dedup.mp hx)
  · have h1 : (allCallees env).dedup.length ≤ (allCallees env).length :=
      (List.dedup_sublist _).length_le
    unfold closureBound allCallees
    unfold allCallees at h1
    omega

theorem callees_subset_reachSet (env : List FuncLG) (f : Nat) :
    calleesOf env f ⊆ reachSet env f :=
  fun _ hx =>
    subset_closeFuel env (closureBound env) (calleesOf env f).dedup
      (List.mem_dedup.mpr hx)

theorem reachSet_sound (env : List FuncLG) (f : Nat) :
    ∀ x ∈ reachSet env f, Relation.TransGen (Edge env) f x := by
  suffices hgen : ∀ (k : Nat) (s : List Nat),
      (∀ x ∈ s, Relation.TransGen (Edge env) f x) →
      ∀ x ∈ closeFuel env k s, Relation.TransGen (Edge env) f x by
    refine hgen (closureBound env) _ ?_
    exact fun x hx => Relation.TransGen.single (List.mem_dedup.mp hx)
  intro k
  induction k with
  | zero => exact fun s h => h
  | succ k ih =>
    intro s hs
    show ∀ x ∈ (if stepClose env s = s then s
                else closeFuel env k (stepClose env s)),
      Relation.TransGen (Edge env) f x
    by_cases h : stepClose env s = s
    · rw [if_pos h]; exact hs
    · rw [if_neg h]
      refine ih (stepClose env s) ?_
      intro x hx
      rcases mem_stepClose.mp hx with h' | ⟨a, ha, h'⟩
      · exact hs x h'
      · exact (hs a ha).tail h'

theorem reachSet_complete (env : List FuncLG) (f x : Nat)
    (h : Relation.TransGen (Edge env) f x) : x ∈ reachSet env f := by
  induction h with
  | single h' => exact callees_subset_reachSet env f h'
  | tail _ h' ih => exact closed_reachSet env f _ ih _ h'

theorem sccHasCycle_iff (env : List FuncLG) (f : Nat) :
    sccHasCycle env f = true ↔ Relation.TransGen (Edge env) f f := by
  unfold sccHasCycle
  rw [decide_eq_true_iff]
  exact ⟨fun h => reachSet_sound env f f h, reachSet_complete env f f⟩

/-! The initializer pattern produced by `createNonZeroInitializerFor`. -/

theorem flattenConstList_replicate (n : Nat) (c : Const) :
    flattenConstList (List.replicate n c) =
      (List.replicate n (flattenConst c)).flatten := by
  induction n with
  | zero => rfl
  | succ n ih => simp [List.replicate_succ, flattenConstList, ih]

mutual

theorem flattenConst_createNonZeroInitializerFor (t : LType) :
    flattenConst (createNonZeroInitializerFor t) = (flattenTy t).map isPtrLeaf := by
  cases t with
  | ptr b => rfl
  | array n elem =>
    have ih := flattenConst_createNonZeroInitializerFor elem
    simp [createNonZeroInitializerFor, flattenTy, flattenConst,
      flattenConstList_replicate, ih, List.map_flatten, List.map_replicate]
  | struct elems =>
    have ih := flattenConst_createNonZeroInitializerList elems
    simp [createNonZeroInitializerFor, flattenTy, flattenConst, ih]
  | scalar => rfl

theorem flattenConst_createNonZeroInitializerList (ts : List LType) :
    flattenConstList (createNonZeroInitializerList ts) =
      (flattenTyList ts).map isPtrLeaf := by
  cases ts with
  | nil => rfl
  | cons t ts =>
    have ih1 := flattenConst_createNonZeroInitializerFor t
    have ih2 := flattenConst_createNonZeroInitializerList ts
    simp [createNonZeroInitializerList, flattenConstList, flattenTyList,
      List.map_append, ih1, ih2]

end

end LGP

namespace ICL

/-- A machine register: physical (by ARM register number) or virtual. -/
inductive Reg where
  | phys (n : Nat)
  | virt (id : Nat)
deriving DecidableEq, Repr

/-- The register numbers of the restricted tcGPR class {R0, R1, R2, R3, R12}
(ARMRandezvousICallLimiter.cpp, line 68). -/
def tcGPR : List Nat := [0, 1, 2, 3, 12]

/-- Register classes a `tBLXr` target register can carry.  `tcGPRClass` is a
subclass of `rGPRClass`, which is a subclass of `GPRClass`. -/
inductive RegClass where
  | tcGPRClass
  | rGPRClass
  | GPRClass
  | otherClass
deriving DecidableEq, Repr

/-- `TargetRegisterInfo::getCommonSubClass` against tcGPR: defined for the
GPR family (whose common subclass with tcGPR is tcGPR itself), undefined
otherwise. -/
def commonSubclassWithTcGPR : RegClass → Option RegClass
  | .tcGPRClass => some .tcGPRClass
  | .rGPRClass => some .tcGPRClass
  | .GPRClass => some .tcGPRClass
  | .otherClass => none

/-- `MachineRegisterInfo`: the classes of the virtual registers, indexed by
virtual register id; fresh registers are appended. -/
structure MRI where
  vregClasses : List RegClass
deriving DecidableEq, Repr

/-- `MachineRegisterInfo::getRegClass` (out-of-range ids yield a class
unrelated to the GPR family). -/
def getRegClass (mri : MRI) (v : Nat) : RegClass :=
  mri.vregClasses.getD v .otherClass

/-- `MachineRegisterInfo::constrainRegClass(Reg, &ARM::tcGPRRegClass)`: set
the register's class to the common subclass with tcGPR; no change (a null
return, which the pass ignores) when no common subclass exists. -/
def constrainRegClass (mri : MRI) (v : Nat) : MRI :=
  match commonSubclassWithTcGPR (getRegClass mri v) with
  | some c => ⟨mri.vregClasses.set v c⟩
  | none => mri

/-- `MachineRegisterInfo::createVirtualRegister(&ARM::tcGPRRegClass)`. -/
def createVirtualRegister (mri : MRI) : MRI × Nat :=
  (⟨mri.vregClasses ++ [.tcGPRClass]⟩, mri.vregClasses.length)

/-- An execution predicate: `ARMCC::AL` or a condition code with its
predicate register (the result of `getInstrPredicate`). -/
inductive Pred where
  | al
  | cond (cc : Nat) (predReg : Nat)
deriving DecidableEq, Repr

/-- Machine instructions relevant to the Indirect Call Limiter.  `tBLXr` is
an indirect call through `target`; `tBLXr_Randezvous` is its marked
(hardened) variant (the retagged opcode of line 99). -/
inductive MInst where
  | tBLXr (pred : Pred) (target : Reg)
  | tBLXr_Randezvous (pred : Pred) (target : Reg)
  | copy (dst : Reg) (src : Reg)
  | tMOVr (dst : Reg) (src : Reg) (pred : Pred)
  | other
deriving DecidableEq, Repr

/-- Whether a register belongs to the tcGPR class in the given MRI state. -/
def regInTcGPR (mri : MRI) : Reg → Bool
  | .phys n => tcGPR.contains n
  | .virt v => getRegClass mri v == .tcGPRClass

/--
The per-instruction body of `ARMRandezvousICallLimiter::runOnMachineFunction`
(ARMRandezvousICallLimiter.cpp, lines 73-101), returning the updated MRI and
the instructions that replace `mi` (inserted copies precede the call).
-/
def limitICall (mri : MRI) (mi : MInst) : MRI × List MInst :=
  match mi with
  | .tBLXr pred (.virt v) =>
    (constrainRegClass mri v, [.tBLXr_Randezvous pred (.virt v)])
  | .tBLXr pred (.phys r) =>
    if tcGPR.contains r then (mri, [.tBLXr_Randezvous pred (.phys r)])
    else
      match pred with
      | .al =>
        ((createVirtualRegister mri).1,
         [.copy (.virt (createVirtualRegister mri).2) (.phys r),
          .tBLXr_Randezvous .al (.virt (createVirtualRegister mri).2)])
      | .cond cc pr =>
        ((createVirtualRegister mri).1,
         [.tMOVr (.virt (createVirtualRegister mri).2) (.phys r)
            (.cond cc pr),
          .tBLXr_Randezvous (.cond cc pr)
            (.virt (createVirtualRegister mri).2)])
  | mi => (mri, [mi])

/-- The instruction loop of `runOnMachineFunction` over one basic block. -/
def limitBlock (mri : MRI) : List MInst → MRI × List MInst
  | [] => (mri, [])
  | mi :: rest =>
    let p := limitICall mri mi
    let q := limitBlock p.1 rest
    (q.1, p.2 ++ q.2)

/-- The basic-block loop of `runOnMachineFunction`. -/
def limitBlocks (mri : MRI) : List (List MInst) → MRI × List (List MInst)
  | [] => (mri, [])
  | bb :: rest =>
    let p := limitBlock mri bb
    let q := limitBlocks p.1 rest
    (q.1, p.2 :: q.2)

/-- `ARMRandezvousICallLimiter::runOnMachineFunction`
(ARMRandezvousICallLimiter.cpp, lines 58-107). -/
def runOnMachineFunction (enable : Bool) (mri : MRI)
    (mf : List (List MInst)) : MRI × List (List MInst) :=
  if !enable then (mri, mf)
  else limitBlocks mri mf

/-- The unmarked indirect-call opcode. -/
def isUnmarkedICall : MInst → Bool
  | .tBLXr _ _ => true
  | _ => false

/-- The GPR register-class family (classes compatible with tcGPR). -/
def GPRFamily : RegClass → Bool
  | .otherClass => false
  | _ => true

theorem getRegClass_tcGPR_lt {mri : MRI} {v : Nat}
    (h : getRegClass mri v = .tcGPRClass) : v < mri.vregClasses.length := by
  by_contra hge
  unfold getRegClass at h
  rw [List.getD_eq_getElem?_getD, List.getElem?_eq_none (by omega)] at h
  cases h

theorem constrainRegClass_stable {mri : MRI} {v w : Nat}
    (h : getRegClass mri v = .tcGPRClass) :
    getRegClass (constrainRegClass mri w) v = .tcGPRClass := by
  unfold constrainRegClass
  cases hq : commonSubclassWithTcGPR (getRegClass mri w) with
  | none => exact h
  | some c =>
    by_cases hvw : v = w
    · subst hvw
      rw [h] at hq
      cases hq
      have hlt := getRegClass_tcGPR_lt h
      unfold getRegClass
      simp only [List.getD_eq_getElem?_getD]
      rw [List.getElem?_set_self hlt]
      rfl
    · unfold getRegClass at h ⊢
      simp only [List.getD_eq_getElem?_getD] at h ⊢
      rw [List.getElem?_set_ne (by omega)]
      exact h

theorem createVirtualRegister_stable {mri : MRI} {v : Nat}
    (h : getRegClass mri v = .tcGPRClass) :
    getRegClass (createVirtualRegister mri).1 v = .tcGPRClass := by
  have hlt := getRegClass_tcGPR_lt h
  unfold createVirtualRegister getRegClass at *
  simp only [List.getD_eq_getElem?_getD] at h ⊢
  rw [List.getElem?_append_left hlt]
  exact h

theorem limitICall_stable {mri : MRI} {mi : MInst} {v : Nat}
    (h : getRegClass mri v = .tcGPRClass) :
    getRegClass (limitICall mri mi).1 v = .tcGPRClass := by
  cases mi with
  | tBLXr pred target =>
    cases target with
    | virt w => exact constrainRegClass_stable h
    | phys r =>
      by_cases hr : tcGPR.contains r = true
      · simp only [limitICall, if_pos hr]
        exact h
      · cases pred with
        | al =>
          simp only [limitICall, if_neg hr]
          exact createVirtualRegister_stable h
        | cond cc pr =>
          simp only [limitICall, if_neg hr]
          exact createVirtualRegister_stable h
  | tBLXr_Randezvous pred target => exact h
  | copy dst src => exact h
  | tMOVr dst src pred => exact h
  | other => exact h

theorem limitBlock_stable {mri : MRI} {v : Nat}
    (h : getRegClass mri v = .tcGPRClass) :
    ∀ bb : List MInst, getRegClass (limitBlock mri bb).1 v = .tcGPRClass := by
  intro bb
  induction bb generalizing mri with
  | nil => exact h
  | cons mi rest ih => exact ih (limitICall_stable h)

theorem limitBlocks_stable {mri : MRI} {v : Nat}
    (h : getRegClass mri v = .tcGPRClass) :
    ∀ mf : List (List MInst),
      getRegClass (limitBlocks mri mf).1 v = .tcGPRClass := by
  intro mf
  induction mf generalizing mri with
  | nil => exact h
  | cons bb rest ih => exact ih (limitBlock_stable h bb)

theorem regInTcGPR_stable_block {mri : MRI} {t : Reg}
    (h : regInTcGPR mri t = true) (bb : List MInst) :
    regInTcGPR (limitBlock mri bb).1 t = true := by
  cases t with
  | phys n => exact h
  | virt v =>
    simp only [regInTcGPR, beq_iff_eq] at h ⊢
    exact limitBlock_stable h bb

theorem regInTcGPR_stable_blocks {mri : MRI} {t : Reg}
    (h : regInTcGPR mri t = true) (mf : List (List MInst)) :
    regInTcGPR (limitBlocks mri mf).1 t = true := by
  cases t with
  | phys n => exact h
  | virt v =>
    simp only [regInTcGPR, beq_iff_eq] at h ⊢
    exact limitBlocks_stable h mf

theorem getRegClass_family_lt {mri : MRI} {v : Nat}
    (h : GPRFamily (getRegClass mri v) = true) : v < mri.vregClasses.length := by
  by_contra hge
  unfold getRegClass at h
  rw [List.getD_eq_getElem?_getD, List.getElem?_eq_none (by omega)] at h
  cases h

theorem commonSubclassWithTcGPR_eq {c c' : RegClass}
    (hq : commonSubclassWithTcGPR c = some c') : c' = RegClass.tcGPRClass := by
  cases c <;> simp [commonSubclassWithTcGPR] at hq <;> exact hq.symm

theorem GPRFamily_constrain {mri : MRI} {v w : Nat}
    (h : GPRFamily (getRegClass mri v) = true) :
    GPRFamily (getRegClass (constrainRegClass mri w) v) = true := by
  unfold constrainRegClass
  cases hq : commonSubclassWithTcGPR (getRegClass mri w) with
  | none => exact h
  | some c =>
    cases commonSubclassWithTcGPR_eq hq
    by_cases hvw : v = w
    · subst hvw
      have hlt := getRegClass_family_lt h
      unfold getRegClass
      simp only [List.getD_eq_getElem?_getD]
      rw [List.getElem?_set_self hlt]
      rfl
    · unfold getRegClass at h ⊢
      simp only [List.getD_eq_getElem?_getD] at h ⊢
      rw [List.getElem?_set_ne (by omega)]
      exact h

theorem GPRFamily_createVirtualRegister {mri : MRI} {v : Nat}
    (h : GPRFamily (getRegClass mri v) = true) :
    GPRFamily (getRegClass (createVirtualRegister mri).1 v) = true := by
  have hlt := getRegClass_family_lt h
  unfold createVirtualRegister getRegClass at *
  simp only [List.getD_eq_getElem?_getD] at h ⊢
  rw [List.getElem?_append_left hlt]
  exact h

theorem GPRFamily_limitICall {mri : MRI} {mi : MInst} {v : Nat}
    (h : GPRFamily (getRegClass mri v) = true) :
    GPRFamily (getRegClass (limitICall mri mi).1 v) = true := by
  cases mi with
  | tBLXr pred target =>
    cases target with
    | virt w => exact GPRFamily_constrain h
    | phys r =>
      by_cases hr : tcGPR.contains r = true
      · simp only [limitICall, if_pos hr]
        exact h
      · cases pred with
        | al =>
          simp only [limitICall, if_neg hr]
          exact GPRFamily_createVirtualRegister h
        | cond cc pr =>
          simp only [limitICall, if_neg hr]
          exact GPRFamily_createVirtualRegister h
  | tBLXr_Randezvous pred target => exact h
  | copy dst src => exact h
  | tMOVr dst src pred => exact h
  | other => exact h

/-- A register made tcGPR by `constrainRegClass` on a GPR-family register. -/
theorem constrainRegClass_makes_tcGPR {mri : MRI} {v : Nat}
    (h : GPRFamily (getRegClass mri v) = true) :
    getRegClass (constrainRegClass mri v) v = RegClass.tcGPRClass := by
  have hlt := getRegClass_family_lt h
  unfold constrainRegClass
  cases hq : commonSubclassWithTcGPR (getRegClass mri v) with
  | none =>
    cases hcl : getRegClass mri v <;> rw [hcl] at h hq <;>
      simp [commonSubclassWithTcGPR] at hq <;> simp [GPRFamily] at h
  | some c =>
    cases commonSubclassWithTcGPR_eq hq
    unfold getRegClass
    simp only [List.getD_eq_getElem?_getD]
    rw [List.getElem?_set_self hlt]
    rfl

/-- The fresh register created by `createVirtualRegister` is tcGPR. -/
theorem createVirtualRegister_tcGPR (mri : MRI) :
    getRegClass (createVirtualRegister mri).1
      (createVirtualRegister mri).2 = RegClass.tcGPRClass := by
  unfold createVirtualRegister getRegClass
  simp only [List.getD_eq_getElem?_getD]
  rw [List.getElem?_concat_length]
  rfl

/-- Per-instruction correctness of the Indirect Call Limiter rewrite. -/
theorem limitICall_correct {mri : MRI} {mi : MInst}
    (hfam : ∀ pred v, mi = MInst.tBLXr pred (Reg.virt v) →
      GPRFamily (getRegClass mri v) = true)
    (hnm : ∀ pred t, mi ≠ MInst.tBLXr_Randezvous pred t) :
    ∀ mi' ∈ (limitICall mri mi).2,
      isUnmarkedICall mi' = false ∧
      ∀ pred t, mi' = MInst.tBLXr_Randezvous pred t →
        regInTcGPR (limitICall mri mi).1 t = true := by
  cases mi with
  | tBLXr pred target =>
    cases target with
    | virt v =>
      intro mi' hmi'
      simp only [limitICall, List.mem_singleton] at hmi'
      subst hmi'
      refine ⟨rfl, ?_⟩
      intro pred' t heq
      injection heq with h1 h2
      subst h2
      show regInTcGPR (limitICall mri (MInst.tBLXr pred (Reg.virt v))).1
        (Reg.virt v) = true
      simp only [limitICall, regInTcGPR, beq_iff_eq]
      exact constrainRegClass_makes_tcGPR (hfam pred v rfl)
    | phys r =>
      by_cases hr : tcGPR.contains r = true
      · intro mi' hmi'
        simp only [limitICall, if_pos hr, List.mem_singleton] at hmi'
        subst hmi'
        refine ⟨rfl, ?_⟩
        intro pred' t heq
        injection heq with h1 h2
        subst h2
        simp only [limitICall, if_pos hr, regInTcGPR]
        exact hr
      · cases pred with
        | al =>
          intro mi' hmi'
          simp only [limitICall, if_neg hr, List.mem_cons,
            List.mem_singleton, List.not_mem_nil, or_false] at hmi'
          rcases hmi' with hmi' | hmi' <;> subst hmi'
          · exact ⟨rfl, by intro pred' t heq; simp at heq⟩
          · refine ⟨rfl, ?_⟩
            intro pred' t heq
            injection heq with h1 h2
            subst h2
            simp only [limitICall, if_neg hr, regInTcGPR, beq_iff_eq]
            exact createVirtualRegister_tcGPR mri
        | cond cc pr =>
          intro mi' hmi'
          simp only [limitICall, if_neg hr, List.mem_cons,
            List.mem_singleton, List.not_mem_nil, or_false] at hmi'
          rcases hmi' with hmi' | hmi' <;> subst hmi'
          · exact ⟨rfl, by intro pred' t heq; simp at heq⟩
          · refine ⟨rfl, ?_⟩
            intro pred' t heq
            injection heq with h1 h2
            subst h2
            simp only [limitICall, if_neg hr, regInTcGPR, beq_iff_eq]
            exact createVirtualRegister_tcGPR mri
  | tBLXr_Randezvous pred target => exact absurd rfl (hnm pred target)
  | copy dst src =>
    intro mi' hmi'
    simp only [limitICall, List.mem_singleton] at hmi'
    subst hmi'
    exact ⟨rfl, by intro pred' t heq; simp at heq⟩
  | tMOVr dst src pred =>
    intro mi' hmi'
    simp only [limitICall, List.mem_singleton] at hmi'
    subst hmi'
    exact ⟨rfl, by intro pred' t heq; simp at heq⟩
  | other =>
    intro mi' hmi'
    simp only [limitICall, List.mem_singleton] at hmi'
    subst hmi'
    exact ⟨rfl, by intro pred' t heq; simp at heq⟩

/-- Block-level correctness of the Indirect Call Limiter rewrite. -/
theorem limitBlock_correct {mri : MRI} {bb : List MInst}
    (hfam : ∀ mi ∈ bb, ∀ pred v, mi = MInst.tBLXr pred (Reg.virt v) →
      GPRFamily (getRegClass mri v) = true)
    (hnm : ∀ mi ∈ bb, ∀ pred t, mi ≠ MInst.tBLXr_Randezvous pred t) :
    ∀ mi' ∈ (limitBlock mri bb).2,
      isUnmarkedICall mi' = false ∧
      ∀ pred t, mi' = MInst.tBLXr_Randezvous pred t →
        regInTcGPR (limitBlock mri bb).1 t = true := by
  induction bb generalizing mri with
  | nil => intro mi' hmi'; cases hmi'
  | cons mi rest ih =>
    intro mi' hmi'
    have hstep : (limitBlock mri (mi :: rest)) =
        ((limitBlock (limitICall mri mi).1 rest).1,
         (limitICall mri mi).2 ++ (limitBlock (limitICall mri mi).1 rest).2) :=
      rfl
    rw [hstep] at hmi' ⊢
    simp only [List.mem_append] at hmi'
    rcases hmi' with hmi' | hmi'
    · obtain ⟨h1, h2⟩ := limitICall_correct
        (fun pred v heq => hfam mi (List.mem_cons_self mi rest) pred v heq)
        (fun pred t => hnm mi (List.mem_cons_self mi rest) pred t) mi' hmi'
      refine ⟨h1, fun pred t heq => ?_⟩
      exact regInTcGPR_stable_block (h2 pred t heq) rest
    · exact ih
        (fun mj hmj pred v heq =>
          GPRFamily_limitICall (hfam mj (List.mem_cons_of_mem mi hmj) pred v heq))
        (fun mj hmj pred t =>
          hnm mj (List.mem_cons_of_mem mi hmj) pred t) mi' hmi'

/-- GPR-family classes survive the processing of a whole block. -/
theorem GPRFamily_limitBlock {mri : MRI} {v : Nat}
    (h : GPRFamily (getRegClass mri v) = true) :
    ∀ bb : List MInst,
      GPRFamily (getRegClass (limitBlock mri bb).1 v) = true := by
  intro bb
  induction bb generalizing mri with
  | nil => exact h
  | cons mi rest ih => exact ih (GPRFamily_limitICall h)

/-- Function-level correctness of the Indirect Call Limiter rewrite. -/
theorem limitBlocks_correct {mri : MRI} {mf : List (List MInst)}
    (hfam : ∀ bb ∈ mf, ∀ mi ∈ bb, ∀ pred v,
      mi = MInst.tBLXr pred (Reg.virt v) →
      GPRFamily (getRegClass mri v) = true)
    (hnm : ∀ bb ∈ mf, ∀ mi ∈ bb, ∀ pred t,
      mi ≠ MInst.tBLXr_Randezvous pred t) :
    ∀ bb' ∈ (limitBlocks mri mf).2, ∀ mi' ∈ bb',
      isUnmarkedICall mi' = false ∧
      ∀ pred t, mi' = MInst.tBLXr_Randezvous pred t →
        regInTcGPR (limitBlocks mri mf).1 t = true := by
  induction mf generalizing mri with
  | nil => intro bb' hbb'; cases hbb'
  | cons bb rest ih =>
    intro bb' hbb'
    have hstep : (limitBlocks mri (bb :: rest)) =
        ((limitBlocks (limitBlock mri bb).1 rest).1,
         (limitBlock mri bb).2 :: (limitBlocks (limitBlock mri bb).1 rest).2) :=
      rfl
    rw [hstep] at hbb' ⊢
    simp only [List.mem_cons] at hbb'
    rcases hbb' with hbb' | hbb'
    · subst hbb'
      intro mi' hmi'
      obtain ⟨h1, h2⟩ := limitBlock_correct
        (fun mi hmi pred v heq =>
          hfam bb (List.mem_cons_self bb rest) mi hmi pred v heq)
        (fun mi hmi pred t =>
          hnm bb (List.mem_cons_self bb rest) mi hmi pred t) mi' hmi'
      refine ⟨h1, fun pred t heq => ?_⟩
      exact regInTcGPR_stable_blocks (h2 pred t heq) rest
    · intro mi' hmi'
      exact ih
        (fun bj hbj mi hmi pred v heq =>
          GPRFamily_limitBlock
            (hfam bj (List.mem_cons_of_mem bb hbj) mi hmi pred v heq) bb)
        (fun bj hbj mi hmi pred t =>
          hnm bj (List.mem_cons_of_mem bb hbj) mi hmi pred t) bb' hbb' mi' hmi'

end ICL

namespace GDLR

/-- Section-name prefixes checked by GDLR's classification
(ARMRandezvousGDLR.cpp, lines 461-478). -/
inductive SectionName where
  | rodataSec
  | dataSec
  | bssSec
  | otherSec
deriving DecidableEq, Repr

/-- A GlobalVariable as read by GDLR: its allocation size, `isConstant()`,
`hasInitializer()`, whether the initializer `isZeroValue()`, and its explicit
section, if any. -/
structure GVRec where
  size : Nat
  isConstant : Bool
  hasInitializer : Bool
  zeroInit : Bool
  sec : Option SectionName
deriving DecidableEq, Repr

/-- `!GV.hasSection() || GV.getSection().startswith(...)`. -/
def sectionOK (sec : Option SectionName) (k : SectionName) : Bool :=
  match sec with
  | none => true
  | some s => s == k

/-- The classification chain of runOnModule, lines 459-483: ends up in
`RodataGVs`. -/
def isRodataGV (gv : GVRec) : Bool :=
  gv.isConstant && sectionOK gv.sec .rodataSec

/-- Ends up in `BssGVs` (non-constant, zero initializer). -/
def isBssGV (gv : GVRec) : Bool :=
  !gv.isConstant && gv.hasInitializer && gv.zeroInit && sectionOK gv.sec .bssSec

/-- Ends up in `DataGVs` (non-constant, non-zero initializer). -/
def isDataGV (gv : GVRec) : Bool :=
  !gv.isConstant && gv.hasInitializer && !gv.zeroInit &&
    sectionOK gv.sec .dataSec

/-- Total allocation size of a list of globals (the loops of lines
488-496). -/
def sumSizes (l : List GVRec) : Nat :=
  (l.map GVRec.size).sum

/-- `llvm::shuffle` applied with a known permutation: the element order drawn
by the Fisher-Yates pass is abstracted into the index list `perm` (a
permutation of `range l.length`). -/
def applyPerm (perm : List Nat) (l : List α) : List α :=
  perm.filterMap fun i => l[i]?

/-- The weights drawn for a class's share computation (lines 544-555); each
draw is masked with `0xffffffff` as in the source. -/
def mkWeights (draws : List Nat) (n : Nat) : List Nat :=
  (List.range n).map fun i => draws.getD i 0 % 4294967296

/-- The truncated proportional shares (lines 556-564):
`Shares[i] = Shares[i] * NumGrbg / SumShares`. -/
def shares (weights : List Nat) (budget : Nat) : List Nat :=
  weights.map fun w => w * budget / weights.sum

/-- Initializer content of one garbage object. -/
inductive GContent where
  | zeros
  | trapAddrs (idxs : List Nat)
  | randomOdd (vals : List Nat)
deriving DecidableEq, Repr

/-- One garbage array object created by `insertGarbageObjects`: its element
count, byte size, alignment, initializer content, and the trap block (if
any) etched with its address. -/
structure GarbageObject where
  numEntries : Nat
  sizeBytes : Nat
  align : Nat
  isConstant : Bool
  content : GContent
  etchedTrap : Option Nat
deriving DecidableEq, Repr

/-- The mutable pass state threaded through `insertGarbageObjects`: the
content RNG (a stream of draws with a cursor), the discovered trap blocks,
and the unetched/etched pools.  The C++ etches from the *back* of the
`TrapBlocksUnetched` vector; the model consumes the list from its head, so
the list is held in etching order. -/
structure GDLRState where
  rng : Nat → Nat
  rngIdx : Nat
  trapBlocks : List Nat
  trapBlocksUnetched : List Nat
  trapBlocksEtched : List Nat

/-- Draw `k` RNG values starting at the cursor. -/
def drawMany (st : GDLRState) (k : Nat) : List Nat :=
  (List.range k).map fun i => st.rng (st.rngIdx + i)

/-- `ObjectSize` of one loop iteration (line 345). -/
def objSize (rem : Nat) : Nat := if rem < 32 then rem else 32

/-- `ObjectAlign` of one loop iteration (line 346). -/
def objAlign (ptrSize rem : Nat) : Nat := if rem < 32 then ptrSize else 32

/-- The garbage initializer of lines 350-373: zeros for a zero-initialized
(bss) anchor; addresses of random trap blocks when decoy biasing is on and
trap blocks exist; random values with the Thumb bit set otherwise. -/
def contentOf (enableGRBG : Bool) (gvZero : Bool) (numEntries : Nat)
    (st : GDLRState) : GContent :=
  if gvZero then GContent.zeros
  else if enableGRBG && !st.trapBlocks.isEmpty then
    GContent.trapAddrs ((drawMany st numEntries).map
      fun v => v % st.trapBlocks.length)
  else
    GContent.randomOdd ((drawMany st numEntries).map fun v => v ||| 1)

/-- The garbage object of one loop iteration (lines 349-395): the etched
trap block, if any, is the pool's next unetched one (the vector back,
modeled as the list head). -/
def mkGarbageObject (enableGRBG : Bool) (ptrSize : Nat)
    (gvIsConst gvZero : Bool) (rem : Nat) (st : GDLRState) : GarbageObject :=
  ⟨objSize rem / ptrSize, objSize rem, objAlign ptrSize rem, gvIsConst,
   contentOf enableGRBG gvZero (objSize rem / ptrSize) st,
   st.trapBlocksUnetched.head?⟩

/-- The pass state after one loop iteration: RNG draws consumed by the
initializer, and the etched trap block moved from the unetched pool to the
etched pool (lines 399-411; no pool change when the pool is empty). -/
def stepState (gvZero : Bool) (ptrSize rem : Nat) (st : GDLRState) :
    GDLRState :=
  ⟨st.rng, st.rngIdx + (if gvZero then 0 else objSize rem / ptrSize),
   st.trapBlocks, st.trapBlocksUnetched.tail,
   st.trapBlocksEtched ++ st.trapBlocksUnetched.take 1⟩

/--
The `while (RemainingSize > 0)` loop of `insertGarbageObjects`
(ARMRandezvousGDLR.cpp, lines 344-414), recursing on the remaining byte
size.  `gvIsConst` is `GV.isConstant()`; `gvZero` is
`GV.hasInitializer() && GV.getInitializer()->isZeroValue()`.
-/
def garbageLoop (enableGRBG : Bool) (ptrSize : Nat)
    (gvIsConst gvZero : Bool) : Nat → GDLRState →
      List GarbageObject × GDLRState
  | rem, st =>
    if h : rem = 0 then ([], st)
    else
      let r := garbageLoop enableGRBG ptrSize gvIsConst gvZero
        (rem - objSize rem) (stepState gvZero ptrSize rem st)
      (mkGarbageObject enableGRBG ptrSize gvIsConst gvZero rem st :: r.1,
       r.2)
  termination_by rem _ => rem
  decreasing_by
    have hpos : 0 < rem := Nat.pos_of_ne_zero h
    simp only [gt_iff_lt, objSize]
    split <;> omega

/-- `ARMRandezvousGDLR::insertGarbageObjects` (lines 323-415), for one
anchor global and its assigned share of pointer-sized garbage objects. -/
def insertGarbageObjects (enableGRBG : Bool) (ptrSize : Nat) (gv : GVRec)
    (numGarbages : Nat) (st : GDLRState) :
    List GarbageObject × GDLRState :=
  garbageLoop enableGRBG ptrSize gv.isConstant
    (gv.hasInitializer && gv.zeroInit) (numGarbages * ptrSize) st

/-- The per-class insertion loop (lines 567-575): each anchor global of the
class, in the order of the (already shuffled) class vector, receives its
share of garbage objects.  Returns the anchor groups in invocation order. -/
def insertForClass (enableGRBG : Bool) (ptrSize : Nat) :
    List (GVRec × Nat) → GDLRState →
      List (GVRec × Nat × List GarbageObject) × GDLRState
  | [], st => ([], st)
  | pr :: rest, st =>
    let a := insertGarbageObjects enableGRBG ptrSize pr.1 pr.2 st
    let b := insertForClass enableGRBG ptrSize rest a.2
    ((pr.1, pr.2, a.1) :: b.1, b.2)

/-- An element of the final global-variable list of one storage class. -/
inductive LayoutEntry where
  | real (gv : GVRec)
  | garbage (g : GarbageObject)
deriving DecidableEq, Repr

/-- Byte size of a layout entry. -/
def entrySize : LayoutEntry → Nat
  | .real gv => gv.size
  | .garbage g => g.sizeBytes

/-- The final layout of one class: every anchor's garbage objects are placed
immediately before it (insertion before `GV` at line 376-379 preserves the
creation order of the objects). -/
def classLayout (groups : List (GVRec × Nat × List GarbageObject)) :
    List LayoutEntry :=
  groups.flatMap fun g =>
    (g.2.2.map LayoutEntry.garbage) ++ [LayoutEntry.real g.1]

/-- GDLR configuration (ARMRandezvousOptions). -/
structure GDLRConfig where
  enableGDLR : Bool
  enableGRBG : Bool
  maxRodataSize : Nat
  maxDataSize : Nat
  maxBssSize : Nat
deriving DecidableEq, Repr

/-- The result of a successful (enabled, within-capacity) GDLR run. -/
structure GDLRRun where
  groupsRodata : List (GVRec × Nat × List GarbageObject)
  groupsData : List (GVRec × Nat × List GarbageObject)
  groupsBss : List (GVRec × Nat × List GarbageObject)
  rodataEntries : List LayoutEntry
  dataEntries : List LayoutEntry
  bssEntries : List LayoutEntry
  finalState : GDLRState

/-- The transformation part of `runOnModule` (lines 509-586), after the
capacity assertions have passed. -/
def runGDLRBody (cfg : GDLRConfig) (ptrSize : Nat) (rng : Nat → Nat)
    (permR permD permB : List Nat) (drawsR drawsD drawsB : List Nat)
    (tb : List Nat) (gvs : List GVRec) : GDLRRun :=
  let rodataGVs := gvs.filter isRodataGV
  let dataGVs := gvs.filter isDataGV
  let bssGVs := gvs.filter isBssGV
  let shuffledRodata := applyPerm permR rodataGVs
  let shuffledData := applyPerm permD dataGVs
  let shuffledBss := applyPerm permB bssGVs
  let numGrbgInRodata := (cfg.maxRodataSize - sumSizes rodataGVs) / ptrSize
  let numGrbgInData := (cfg.maxDataSize - sumSizes dataGVs) / ptrSize
  let numGrbgInBss := (cfg.maxBssSize - sumSizes bssGVs) / ptrSize
  let sharesRodata :=
    shares (mkWeights drawsR shuffledRodata.length) numGrbgInRodata
  let sharesData :=
    shares (mkWeights drawsD shuffledData.length) numGrbgInData
  let sharesBss :=
    shares (mkWeights drawsB shuffledBss.length) numGrbgInBss
  let st0 : GDLRState := ⟨rng, 0, tb, tb, []⟩
  let pR := insertForClass cfg.enableGRBG ptrSize
    (shuffledRodata.zip sharesRodata) st0
  let pD := insertForClass cfg.enableGRBG ptrSize
    (shuffledData.zip sharesData) pR.2
  let pB := insertForClass cfg.enableGRBG ptrSize
    (shuffledBss.zip sharesBss) pD.2
  ⟨pR.1, pD.1, pB.1,
   classLayout pR.1, classLayout pD.1, classLayout pB.1, pB.2⟩

/--
`ARMRandezvousGDLR::runOnModule` (lines 436-586), modulo the global guard
machinery (lines 577-580, machine-code generation not touched by the claims
below).  The three shuffles are abstracted by the permutations
`permR`/`permD`/`permB` and the weight draws by `drawsR`/`drawsD`/`drawsB`;
`tb` is the trap-block pool found in the module (in etching order) and `rng`
the content RNG.  Returns `none` when the pass is disabled (lines 501-503,
a statistics-only no-op) or when a class's real footprint exceeds its
capacity (the assertions of lines 505-507 abort the build).
-/
def runOnModule (cfg : GDLRConfig) (ptrSize : Nat) (rng : Nat → Nat)
    (permR permD permB : List Nat) (drawsR drawsD drawsB : List Nat)
    (tb : List Nat) (gvs : List GVRec) : Option GDLRRun :=
  if !cfg.enableGDLR then none
  else if sumSizes (gvs.filter isRodataGV) ≤ cfg.maxRodataSize ∧
          sumSizes (gvs.filter isDataGV) ≤ cfg.maxDataSize ∧
          sumSizes (gvs.filter isBssGV) ≤ cfg.maxBssSize then
    some (runGDLRBody cfg ptrSize rng permR permD permB
      drawsR drawsD drawsB tb gvs)
  else none

/-! Arithmetic facts about the truncated proportional share allocation. -/

theorem add_div_le_add_div (a b c : Nat) : a / c + b / c ≤ (a + b) / c := by
  cases c with
  | zero => simp
  | succ c =>
    rw [Nat.le_div_iff_mul_le (Nat.succ_pos c), Nat.add_mul]
    exact Nat.add_le_add (Nat.div_mul_le_self a _) (Nat.div_mul_le_self b _)

theorem sum_map_div_le (l : List Nat) (d : Nat) :
    (l.map (· / d)).sum ≤ l.sum / d := by
  induction l with
  | nil => simp
  | cons a l ih =>
    simp only [List.map_cons, List.sum_cons]
    calc a / d + (l.map (· / d)).sum ≤ a / d + l.sum / d :=
          Nat.add_le_add_left ih _
      _ ≤ (a + l.sum) / d := add_div_le_add_div a l.sum d

theorem sum_map_mul_right (l : List Nat) (n : Nat) :
    (l.map (· * n)).sum = l.sum * n := by
  induction l with
  | nil => simp
  | cons a l ih => simp [ih, Nat.add_mul]

/-- The truncated proportional shares never over-allocate the budget. -/
theorem sum_shares_le (w : List Nat) (budget : Nat) :
    (shares w budget).sum ≤ budget := by
  unfold shares
  have h1 : (w.map fun x => x * budget / w.sum) =
      (w.map (· * budget)).map (· / w.sum) := by
    rw [List.map_map]
    rfl
  rw [h1]
  have h2 := sum_map_div_le (w.map (· * budget)) w.sum
  rw [sum_map_mul_right w budget] at h2
  refine h2.trans ?_
  cases hw : w.sum with
  | zero => simp
  | succ n =>
    rw [Nat.mul_div_cancel_left budget (Nat.succ_pos n)]

theorem objSize_pos {rem : Nat} (h : rem ≠ 0) : 0 < objSize rem := by
  unfold objSize
  split
  · omega
  · omega

theorem objSize_le (rem : Nat) : objSize rem ≤ rem := by
  unfold objSize
  split
  · omega
  · omega

/--
Full characterization of one `insertGarbageObjects` loop run: (a) the
created objects' sizes sum to the remaining byte size, (b) the trap-block
list is unchanged, (c) the unetched pool loses a prefix of length `k` that
moves, in order, to the etched pool and onto the created objects, and (d)
the objects are full 32-byte-aligned blocks of `32 / ptrSize` entries plus
at most one trailing undersized, pointer-aligned remainder block.
-/
theorem garbageLoop_spec (e : Bool) (p : Nat) (c z : Bool) :
    ∀ rem st,
      (((garbageLoop e p c z rem st).1.map GarbageObject.sizeBytes).sum
        = rem) ∧
      (garbageLoop e p c z rem st).2.trapBlocks = st.trapBlocks ∧
      (∃ k, (garbageLoop e p c z rem st).2.trapBlocksUnetched =
              st.trapBlocksUnetched.drop k ∧
            (garbageLoop e p c z rem st).2.trapBlocksEtched =
              st.trapBlocksEtched ++ st.trapBlocksUnetched.take k ∧
            (garbageLoop e p c z rem st).1.filterMap
                GarbageObject.etchedTrap =
              st.trapBlocksUnetched.take k) ∧
      (∃ q rq,
        (garbageLoop e p c z rem st).1.map
            (fun g => (g.sizeBytes, g.align, g.numEntries)) =
          List.replicate q (32, 32, 32 / p) ++
            (if rq = 0 then [] else [(rq, p, rq / p)]) ∧
        rq < 32 ∧ rem = q * 32 + rq) := by
  intro rem
  induction rem using Nat.strong_induction_on with
  | _ rem ih =>
    intro st
    by_cases h : rem = 0
    · subst h
      unfold garbageLoop
      exact ⟨rfl, rfl, ⟨0, by simp, by simp, rfl⟩,
             ⟨0, 0, by simp, by omega, by omega⟩⟩
    · have hpos : 0 < rem := Nat.pos_of_ne_zero h
      have hoble := objSize_le rem
      have hobpos := objSize_pos h
      have hlt : rem - objSize rem < rem := Nat.sub_lt hpos hobpos
      obtain ⟨ihA, ihB, ⟨k, ihC1, ihC2, ihC3⟩, q, rq, ihD1, ihD2, ihD3⟩ :=
        ih (rem - objSize rem) hlt (stepState z p rem st)
      unfold garbageLoop
      rw [dif_neg h]
      refine ⟨?_, ?_, ⟨k + 1, ?_, ?_, ?_⟩, ?_⟩
      · show GarbageObject.sizeBytes
            (mkGarbageObject e p c z rem st) +
          ((garbageLoop e p c z (rem - objSize rem)
            (stepState z p rem st)).1.map GarbageObject.sizeBytes).sum = rem
        rw [ihA]
        show objSize rem + (rem - objSize rem) = rem
        omega
      · show (garbageLoop e p c z (rem - objSize rem)
            (stepState z p rem st)).2.trapBlocks = st.trapBlocks
        rw [ihB]
        rfl
      · show (garbageLoop e p c z (rem - objSize rem)
            (stepState z p rem st)).2.trapBlocksUnetched =
          st.trapBlocksUnetched.drop (k + 1)
        rw [ihC1]
        show (st.trapBlocksUnetched.tail).drop k =
          st.trapBlocksUnetched.drop (k + 1)
        rw [← List.drop_one, List.drop_drop, Nat.add_comm 1 k]
      · show (garbageLoop e p c z (rem - objSize rem)
            (stepState z p rem st)).2.trapBlocksEtched =
          st.trapBlocksEtched ++ st.trapBlocksUnetched.take (k + 1)
        rw [ihC2]
        show (st.trapBlocksEtched ++ st.trapBlocksUnetched.take 1) ++
            (st.trapBlocksUnetched.tail).take k =
          st.trapBlocksEtched ++ st.trapBlocksUnetched.take (k + 1)
        rw [List.append_assoc, ← List.drop_one,
          ← List.take_add, Nat.add_comm 1 k]
      · show List.filterMap GarbageObject.etchedTrap
            (mkGarbageObject e p c z rem st ::
              (garbageLoop e p c z (rem - objSize rem)
                (stepState z p rem st)).1) =
          st.trapBlocksUnetched.take (k + 1)
        rw [List.filterMap_cons, ihC3]
        simp only [mkGarbageObject, stepState]
        cases st.trapBlocksUnetched with
        | nil => simp
        | cons t rest => simp
      · by_cases h32 : rem < 32
        · refine ⟨0, rem, ?_, h32, by omega⟩
          have hob : objSize rem = rem := by
            unfold objSize
            rw [if_pos h32]
          have hrec0 : rem - objSize rem = 0 := by omega
          rw [hrec0] at ihD3
          have hq0 : q = 0 ∧ rq = 0 := by omega
          rw [hq0.1, hq0.2] at ihD1
          simp only [List.replicate_zero, List.nil_append, if_pos rfl]
            at ihD1
          have hnil : (garbageLoop e p c z (rem - objSize rem)
              (stepState z p rem st)).1 = [] :=
            List.map_eq_nil_iff.mp ihD1
          show List.map (fun g => (g.sizeBytes, g.align, g.numEntries))
              (mkGarbageObject e p c z rem st ::
                (garbageLoop e p c z (rem - objSize rem)
                  (stepState z p rem st)).1) =
            List.replicate 0 (32, 32, 32 / p) ++
              (if rem = 0 then [] else [(rem, p, rem / p)])
          rw [List.map_cons, hnil]
          rw [if_neg h]
          show (objSize rem, objAlign p rem, objSize rem / p) :: [] =
            [(rem, p, rem / p)]
          rw [hob]
          show (rem, objAlign p rem, rem / p) :: [] = [(rem, p, rem / p)]
          unfold objAlign
          rw [if_pos h32]
        · have hob : objSize rem = 32 := by
            unfold objSize
            rw [if_neg h32]
          refine ⟨q + 1, rq, ?_, ihD2, by omega⟩
          show List.map (fun g => (g.sizeBytes, g.align, g.numEntries))
              (mkGarbageObject e p c z rem st ::
                (garbageLoop e p c z (rem - objSize rem)
                  (stepState z p rem st)).1) =
            List.replicate (q + 1) (32, 32, 32 / p) ++
              (if rq = 0 then [] else [(rq, p, rq / p)])
          rw [List.map_cons, ihD1]
          show (objSize rem, objAlign p rem, objSize rem / p) ::
              (List.replicate q (32, 32, 32 / p) ++
                (if rq = 0 then [] else [(rq, p, rq / p)])) =
            List.replicate (q + 1) (32, 32, 32 / p) ++
              (if rq = 0 then [] else [(rq, p, rq / p)])
          rw [hob]
          unfold objAlign
          rw [if_neg h32]
          rw [List.replicate_succ, List.cons_append]

/--
Composition of `insertGarbageObjects` over one class's anchors: anchor order
is preserved, each anchor receives exactly `share * ptrSize` garbage bytes,
the trap pools evolve by moving a prefix of the unetched pool to the etched
pool and onto the created objects, and every anchor's garbage respects the
32-byte block grouping.
-/
theorem insertForClass_spec (e : Bool) (p : Nat) :
    ∀ (pairs : List (GVRec × Nat)) (st : GDLRState),
      ((insertForClass e p pairs st).1.map (fun g => g.1) =
        pairs.map (fun pr => pr.1)) ∧
      ((insertForClass e p pairs st).1.map
          (fun g => (g.2.2.map GarbageObject.sizeBytes).sum) =
        pairs.map (fun pr => pr.2 * p)) ∧
      (insertForClass e p pairs st).2.trapBlocks = st.trapBlocks ∧
      (∃ k, (insertForClass e p pairs st).2.trapBlocksUnetched =
              st.trapBlocksUnetched.drop k ∧
            (insertForClass e p pairs st).2.trapBlocksEtched =
              st.trapBlocksEtched ++ st.trapBlocksUnetched.take k ∧
            ((insertForClass e p pairs st).1.flatMap
                (fun g => g.2.2)).filterMap GarbageObject.etchedTrap =
              st.trapBlocksUnetched.take k) ∧
      (∀ g ∈ (insertForClass e p pairs st).1, ∃ q rq,
        g.2.2.map (fun ob => (ob.sizeBytes, ob.align, ob.numEntries)) =
          List.replicate q (32, 32, 32 / p) ++
            (if rq = 0 then [] else [(rq, p, rq / p)]) ∧
        rq < 32 ∧ g.2.1 * p = q * 32 + rq) ∧
      (∀ g ∈ (insertForClass e p pairs st).1,
        (g.2.2.map GarbageObject.sizeBytes).sum = g.2.1 * p) := by
  intro pairs
  induction pairs with
  | nil =>
    intro st
    refine ⟨rfl, rfl, rfl, ⟨0, rfl, ?_, rfl⟩, ?_, ?_⟩
    · simp [insertForClass]
    · intro g hg
      cases hg
    · intro g hg
      cases hg
  | cons pr rest ih =>
    intro st
    obtain ⟨glA, glB, ⟨kg, glC1, glC2, glC3⟩, qg, rqg, glD1, glD2, glD3⟩ :=
      garbageLoop_spec e p pr.1.isConstant
        (pr.1.hasInitializer && pr.1.zeroInit) (pr.2 * p) st
    obtain ⟨ihA, ihB, ihT, ⟨k, ihC1, ihC2, ihC3⟩, ihD, ihE⟩ :=
      ih (insertGarbageObjects e p pr.1 pr.2 st).2
    refine ⟨?_, ?_, ?_, ⟨kg + k, ?_, ?_, ?_⟩, ?_, ?_⟩
    · show pr.1 :: (insertForClass e p rest
          (insertGarbageObjects e p pr.1 pr.2 st).2).1.map (fun g => g.1) =
        pr.1 :: rest.map (fun pr => pr.1)
      rw [ihA]
    · show ((insertGarbageObjects e p pr.1 pr.2 st).1.map
            GarbageObject.sizeBytes).sum ::
          (insertForClass e p rest
            (insertGarbageObjects e p pr.1 pr.2 st).2).1.map
              (fun g => (g.2.2.map GarbageObject.sizeBytes).sum) =
        pr.2 * p :: rest.map (fun pr => pr.2 * p)
      rw [ihB, show ((insertGarbageObjects e p pr.1 pr.2 st).1.map
          GarbageObject.sizeBytes).sum = pr.2 * p from glA]
    · show (insertForClass e p rest
          (insertGarbageObjects e p pr.1 pr.2 st).2).2.trapBlocks =
        st.trapBlocks
      rw [ihT]
      exact glB
    · show (insertForClass e p rest
          (insertGarbageObjects e p pr.1 pr.2 st).2).2.trapBlocksUnetched =
        st.trapBlocksUnetched.drop (kg + k)
      rw [ihC1, show (insertGarbageObjects e p pr.1 pr.2
            st).2.trapBlocksUnetched =
          st.trapBlocksUnetched.drop kg from glC1,
        List.drop_drop]
    · show (insertForClass e p rest
          (insertGarbageObjects e p pr.1 pr.2 st).2).2.trapBlocksEtched =
        st.trapBlocksEtched ++ st.trapBlocksUnetched.take (kg + k)
      rw [ihC2, show (insertGarbageObjects e p pr.1 pr.2
            st).2.trapBlocksUnetched =
          st.trapBlocksUnetched.drop kg from glC1,
        show (insertGarbageObjects e p pr.1 pr.2 st).2.trapBlocksEtched =
          st.trapBlocksEtched ++ st.trapBlocksUnetched.take kg from glC2,
        List.append_assoc, ← List.take_add]
    · show (((insertGarbageObjects e p pr.1 pr.2 st).1 ++
          (insertForClass e p rest
            (insertGarbageObjects e p pr.1 pr.2 st).2).1.flatMap
              (fun g => g.2.2)).filterMap GarbageObject.etchedTrap) =
        st.trapBlocksUnetched.take (kg + k)
      rw [List.filterMap_append, ihC3,
        show (insertGarbageObjects e p pr.1 pr.2
            st).2.trapBlocksUnetched =
          st.trapBlocksUnetched.drop kg from glC1,
        show ((insertGarbageObjects e p pr.1 pr.2 st).1).filterMap
            GarbageObject.etchedTrap =
          st.trapBlocksUnetched.take kg from glC3,
        ← List.take_add]
    · intro g hg
      have hg2 : g ∈ (pr.1, pr.2,
          (insertGarbageObjects e p pr.1 pr.2 st).1) ::
          (insertForClass e p rest
            (insertGarbageObjects e p pr.1 pr.2 st).2).1 := hg
      rcases List.mem_cons.mp hg2 with hg3 | hg3
      · subst hg3
        exact ⟨qg, rqg, glD1, glD2, glD3⟩
      · exact ihD g hg3
    · intro g hg
      have hg2 : g ∈ (pr.1, pr.2,
          (insertGarbageObjects e p pr.1 pr.2 st).1) ::
          (insertForClass e p rest
            (insertGarbageObjects e p pr.1 pr.2 st).2).1 := hg
      rcases List.mem_cons.mp hg2 with hg3 | hg3
      · subst hg3
        exact glA
      · exact ihE g hg3

/-- The total byte size of one class's final layout. -/
theorem sum_entrySize_classLayout
    (groups : List (GVRec × Nat × List GarbageObject)) :
    ((classLayout groups).map entrySize).sum =
      (groups.map (fun g => (g.2.2.map GarbageObject.sizeBytes).sum)).sum +
        (groups.map (fun g => g.1.size)).sum := by
  induction groups with
  | nil => rfl
  | cons g gs ih =>
    show ((((g.2.2.map LayoutEntry.garbage) ++ [LayoutEntry.real g.1]) ++
        classLayout gs).map entrySize).sum = _
    rw [List.map_append, List.sum_append, List.map_append, List.sum_append,
      ih, List.map_map]
    simp only [List.map_cons, List.sum_cons]
    have h1 : (g.2.2.map (entrySize ∘ LayoutEntry.garbage)).sum =
        (g.2.2.map GarbageObject.sizeBytes).sum := rfl
    rw [h1]
    simp [entrySize]
    omega

/-! Shuffling as an abstract permutation. -/

theorem filterMap_getElem_range (l : List α) :
    (List.range l.length).filterMap (fun i => l[i]?) = l := by
  induction l with
  | nil => rfl
  | cons a l ih =>
    rw [List.length_cons, List.range_succ_eq_map, List.filterMap_cons]
    simp only [List.getElem?_cons_zero, List.filterMap_map]
    show a :: List.filterMap ((fun i => (a :: l)[i]?) ∘ Nat.succ)
        (List.range l.length) = a :: l
    have h2 : ((fun i => (a :: l)[i]?) ∘ Nat.succ) =
        fun i : Nat => l[i]? := by
      funext i
      exact List.getElem?_cons_succ
    rw [h2, ih]

theorem applyPerm_perm {perm : List Nat} (l : List α)
    (h : perm.Perm (List.range l.length)) : (applyPerm perm l).Perm l := by
  unfold applyPerm
  have h2 := h.filterMap (fun i => l[i]?)
  rwa [filterMap_getElem_range] at h2

theorem sumSizes_applyPerm {perm : List Nat} (l : List GVRec)
    (h : perm.Perm (List.range l.length)) :
    sumSizes (applyPerm perm l) = sumSizes l :=
  ((applyPerm_perm l h).map GVRec.size).sum_eq

theorem mkWeights_length (draws : List Nat) (n : Nat) :
    (mkWeights draws n).length = n := by
  unfold mkWeights
  rw [List.length_map, List.length_range]

theorem shares_length (w : List Nat) (budget : Nat) :
    (shares w budget).length = w.length := by
  unfold shares
  rw [List.length_map]

/-- Capacity bound for one storage class: real sizes (a permutation of the
original class) plus all inserted garbage stay within the configured
maximum. -/
theorem class_capacity (e : Bool) (p : Nat) (classGVs : List GVRec)
    (perm : List Nat) (hperm : perm.Perm (List.range classGVs.length))
    (draws : List Nat) (maxSize : Nat)
    (hle : sumSizes classGVs ≤ maxSize) (st : GDLRState) :
    ((classLayout (insertForClass e p ((applyPerm perm classGVs).zip
        (shares (mkWeights draws (applyPerm perm classGVs).length)
          ((maxSize - sumSizes classGVs) / p))) st).1).map
      entrySize).sum ≤ maxSize := by
  set shuffled := applyPerm perm classGVs with hsh
  set shs := shares (mkWeights draws shuffled.length)
    ((maxSize - sumSizes classGVs) / p) with hshs
  have hlen : shs.length = shuffled.length := by
    rw [hshs, shares_length, mkWeights_length]
  obtain ⟨hA, hB, -, -, -, -⟩ :=
    insertForClass_spec e p (shuffled.zip shs) st
  rw [sum_entrySize_classLayout, hB]
  have hsize : ((insertForClass e p (shuffled.zip shs) st).1.map
      (fun g => g.1.size)) =
      (((insertForClass e p (shuffled.zip shs) st).1.map
        (fun g => g.1)).map GVRec.size) := by
    rw [List.map_map]
    rfl
  rw [hsize, hA]
  have hfst : (shuffled.zip shs).map (fun pr => pr.1) = shuffled :=
    List.map_fst_zip shuffled shs (by omega)
  rw [hfst]
  have hreal : (shuffled.map GVRec.size).sum = sumSizes classGVs :=
    sumSizes_applyPerm classGVs hperm
  have hgarb : ((shuffled.zip shs).map (fun pr => pr.2 * p)).sum ≤
      maxSize - sumSizes classGVs := by
    have h1 : (shuffled.zip shs).map (fun pr => pr.2 * p) =
        ((shuffled.zip shs).map (fun pr => pr.2)).map (· * p) := by
      rw [List.map_map]
      rfl
    have hsnd : (shuffled.zip shs).map (fun pr => pr.2) = shs :=
      List.map_snd_zip shuffled shs (by omega)
    rw [h1, hsnd, sum_map_mul_right]
    calc shs.sum * p ≤ ((maxSize - sumSizes classGVs) / p) * p :=
          Nat.mul_le_mul_right p (sum_shares_le _ _)
      _ ≤ maxSize - sumSizes classGVs := Nat.div_mul_le_self _ _
  rw [hreal]
  omega

end GDLR

namespace CDLA

/--
A MachineBasicBlock as read by CDLA's runOnModule: its code size
(`getBasicBlockCodeSize`), the trap flag (`isRandezvousTrapBlock`), and the
two call-classification outcomes of `determineLeakability`:
`lastInstrLeakyCall` holds when the block's last non-debug instruction is a
call (tBL/tBLXi) to a callee that may spill LR, or an indirect/unresolved
call (the classification of lines 294-331, applied to this block as a
layout predecessor); `hasNonLastLeakyCall` holds when the block contains
such a call that is not its last instruction (lines 336-377).
-/
structure MBlock where
  size : Nat
  isTrap : Bool
  lastInstrLeakyCall : Bool
  hasNonLastLeakyCall : Bool
deriving DecidableEq, Repr

/-- A Function with a MachineFunction, as visited by CDLA's runOnModule:
the `isReallyAddressTaken` outcome and the basic blocks in layout order.
(Functions with no MachineFunction are skipped by the pass and are not
modeled.) -/
structure CFunc where
  reallyAddressTaken : Bool
  blocks : List MBlock
deriving DecidableEq, Repr

/-- Basic blocks are identified by (function index, layout index); the
`LeakableMBBs` set is a list of such ids (insertion order preserved). -/
def LeakSet := List (Nat × Nat)

/--
`ARMRandezvousCDLA::determineLeakability` (lines 282-381): a block is
leakable if its layout predecessor is in `LeakableMBBs`, or the layout
predecessor ends in a call that may spill LR, or the block itself contains
such a call before its last instruction.
-/
def determineLeakability (blocks : List MBlock) (fIdx bIdx : Nat)
    (leakable : List (Nat × Nat)) : Bool :=
  (match bIdx with
   | 0 => false
   | i + 1 =>
     decide ((fIdx, i) ∈ leakable) ||
       (match blocks[i]? with
        | some pb => pb.lastInstrLeakyCall
        | none => false)) ||
  (match blocks[bIdx]? with
   | some b => b.hasNonLastLeakyCall
   | none => false)

/-- The eight statistics collected by `runOnModule` (lines 401-408). -/
structure CDLAStats where
  codeSize : Nat
  codeSizeLeakable : Nat
  codeSizeLeakableViaFuncPtr : Nat
  codeSizeLeakableViaRetAddr : Nat
  numFuncs : Nat
  numFuncsLeakable : Nat
  numBBs : Nat
  numBBsLeakable : Nat
deriving DecidableEq, Repr

/-- Number of non-trap blocks (the counting loop of lines 417-422). -/
def countNonTrap (blocks : List MBlock) : Nat :=
  (blocks.filter (fun b => !b.isTrap)).length

/-- Total size of non-trap blocks (same loop). -/
def sumNonTrap (blocks : List MBlock) : Nat :=
  ((blocks.filter (fun b => !b.isTrap)).map MBlock.size).sum

/--
The function-pointer-channel marking loop (lines 428-437): every non-trap
block of an address-taken function is charged to the function-pointer
statistics and added to `LeakableMBBs` if not yet present.
-/
def funcPtrLoop (fIdx : Nat) (blocks : List MBlock) :
    List Nat → CDLAStats × List (Nat × Nat) → CDLAStats × List (Nat × Nat)
  | [], s => s
  | bIdx :: idxs, s =>
    match blocks[bIdx]? with
    | none => funcPtrLoop fIdx blocks idxs s
    | some b =>
      if b.isTrap then funcPtrLoop fIdx blocks idxs s
      else
        let s1 := { s.1 with codeSizeLeakableViaFuncPtr :=
          s.1.codeSizeLeakableViaFuncPtr + b.size }
        if (fIdx, bIdx) ∈ s.2 then funcPtrLoop fIdx blocks idxs (s1, s.2)
        else funcPtrLoop fIdx blocks idxs
          ({ s1 with codeSizeLeakable := s1.codeSizeLeakable + b.size },
           s.2 ++ [(fIdx, bIdx)])

/--
The return-address-channel analysis loop (lines 441-453): every non-trap
block found leakable by `determineLeakability` is charged to the
return-address statistics and added to `LeakableMBBs` if not yet present.
-/
def retAddrLoop (fIdx : Nat) (blocks : List MBlock) :
    List Nat → CDLAStats × List (Nat × Nat) → CDLAStats × List (Nat × Nat)
  | [], s => s
  | bIdx :: idxs, s =>
    match blocks[bIdx]? with
    | none => retAddrLoop fIdx blocks idxs s
    | some b =>
      if b.isTrap then retAddrLoop fIdx blocks idxs s
      else if determineLeakability blocks fIdx bIdx s.2 then
        let s1 := { s.1 with
          numBBsLeakable := s.1.numBBsLeakable + 1,
          codeSizeLeakableViaRetAddr :=
            s.1.codeSizeLeakableViaRetAddr + b.size }
        if (fIdx, bIdx) ∈ s.2 then retAddrLoop fIdx blocks idxs (s1, s.2)
        else retAddrLoop fIdx blocks idxs
          ({ s1 with codeSizeLeakable := s1.codeSizeLeakable + b.size },
           s.2 ++ [(fIdx, bIdx)])
      else retAddrLoop fIdx blocks idxs s

/-- Per-function body of `runOnModule` (lines 409-454). -/
def processFunc (fIdx : Nat) (F : CFunc)
    (s : CDLAStats × List (Nat × Nat)) : CDLAStats × List (Nat × Nat) :=
  let stats1 := { s.1 with
    numFuncs := s.1.numFuncs + 1,
    numBBs := s.1.numBBs + countNonTrap F.blocks,
    codeSize := s.1.codeSize + sumNonTrap F.blocks }
  let s2 :=
    if F.reallyAddressTaken then
      funcPtrLoop fIdx F.blocks (List.range F.blocks.length)
        ({ stats1 with numFuncsLeakable := stats1.numFuncsLeakable + 1 },
         s.2)
    else (stats1, s.2)
  retAddrLoop fIdx F.blocks (List.range F.blocks.length) s2

/-- The function loop of `runOnModule`. -/
def goFuncs : Nat → List CFunc → CDLAStats × List (Nat × Nat) →
    CDLAStats × List (Nat × Nat)
  | _, [], s => s
  | fIdx, F :: rest, s => goFuncs (fIdx + 1) rest (processFunc fIdx F s)

/-- `ARMRandezvousCDLA::runOnModule` (lines 397-479): statistics and final
`LeakableMBBs` over the whole module.  (Whether the totals accumulate into
the "original" or "transformed" statistic set — lines 456-475 — only
selects the destination counters and is not modeled.) -/
def runOnModuleCDLA (M : List CFunc) : CDLAStats × List (Nat × Nat) :=
  goFuncs 0 M (⟨0, 0, 0, 0, 0, 0, 0, 0⟩, [])

/-- Setting a trap block's size to zero (flags and layout untouched):
used to state that trap blocks contribute nothing to any size counter. -/
def zeroTrapSizes (M : List CFunc) : List CFunc :=
  M.map fun F =>
    { F with blocks := F.blocks.map fun b =>
        if b.isTrap then { b with size := 0 } else b }

/-- The `LeakableMBBs` list only grows during the return-address loop. -/
theorem retAddrLoop_extend (fIdx : Nat) (blocks : List MBlock) :
    ∀ (idxs : List Nat) (s : CDLAStats × List (Nat × Nat)),
      ∃ t, (retAddrLoop fIdx blocks idxs s).2 = s.2 ++ t := by
  intro idxs
  induction idxs with
  | nil => exact fun s => ⟨[], (List.append_nil s.2).symm⟩
  | cons bIdx idxs ih =>
    intro s
    show ∃ t, (match blocks[bIdx]? with
      | none => retAddrLoop fIdx blocks idxs s
      | some b =>
        if b.isTrap then retAddrLoop fIdx blocks idxs s
        else if determineLeakability blocks fIdx bIdx s.2 then
          if (fIdx, bIdx) ∈ s.2 then
            retAddrLoop fIdx blocks idxs
              ({ s.1 with
                 numBBsLeakable := s.1.numBBsLeakable + 1,
                 codeSizeLeakableViaRetAddr :=
                   s.1.codeSizeLeakableViaRetAddr + b.size }, s.2)
          else
            retAddrLoop fIdx blocks idxs
              ({ s.1 with
                 numBBsLeakable := s.1.numBBsLeakable + 1,
                 codeSizeLeakableViaRetAddr :=
                   s.1.codeSizeLeakableViaRetAddr + b.size,
                 codeSizeLeakable :=
                   s.1.codeSizeLeakable + b.size },
               s.2 ++ [(fIdx, bIdx)])
        else retAddrLoop fIdx blocks idxs s).2 = s.2 ++ t
    cases hbk : blocks[bIdx]? with
    | none => exact ih s
    | some b =>
      by_cases htrap : b.isTrap
      · simp only [htrap, if_true]
        exact ih s
      · simp only [htrap, Bool.false_eq_true, if_false]
        by_cases hdet : determineLeakability blocks fIdx bIdx s.2
        · simp only [hdet, if_true]
          by_cases hmem : (fIdx, bIdx) ∈ s.2
          · simp only [hmem, if_pos]
            exact ih _
          · simp only [hmem, if_neg, not_false_iff]
            obtain ⟨t, ht⟩ := ih ({ s.1 with
              numBBsLeakable := s.1.numBBsLeakable + 1,
              codeSizeLeakableViaRetAddr :=
                s.1.codeSizeLeakableViaRetAddr + b.size,
              codeSizeLeakable := s.1.codeSizeLeakable + b.size },
              s.2 ++ [(fIdx, bIdx)])
            exact ⟨(fIdx, bIdx) :: t, by rw [ht, List.append_assoc]; rfl⟩
        · simp only [hdet, Bool.false_eq_true, if_false]
          exact ih s

/--
Propagation along a chain: if every block of the function is a non-trap
block and the first block is directly leakable (it contains a leaky call
before its last instruction), the return-address loop marks every block of
the chain leakable, each one through its already-marked layout
predecessor.
-/
theorem retAddrLoop_chain (fIdx : Nat) (blocks : List MBlock)
    (hnt : ∀ b ∈ blocks, b.isTrap = false)
    (hb0 : ∀ b, blocks[0]? = some b → b.hasNonLastLeakyCall = true) :
    ∀ (m k : Nat) (s : CDLAStats × List (Nat × Nat)),
      k + m ≤ blocks.length →
      (∀ j, j < k → (fIdx, j) ∈ s.2) →
      ∀ j, j < k + m →
        (fIdx, j) ∈ (retAddrLoop fIdx blocks (List.range' k m) s).2 := by
  intro m
  induction m with
  | zero =>
    intro k s hle hP j hj
    exact hP j (by omega)
  | succ m ih =>
    intro k s hle hP
    rw [List.range'_succ]
    have hklt : k < blocks.length := by omega
    obtain ⟨b, hbk⟩ : ∃ b, blocks[k]? = some b := by
      cases hq : blocks[k]? with
      | none =>
        rw [List.getElem?_eq_none_iff] at hq
        omega
      | some b => exact ⟨b, rfl⟩
    have hbmem : b ∈ blocks := List.getElem?_mem hbk
    have htrap : b.isTrap = false := hnt b hbmem
    have hdet : determineLeakability blocks fIdx k s.2 = true := by
      cases k with
      | zero =>
        unfold determineLeakability
        rw [hbk]
        simp [hb0 b hbk]
      | succ i =>
        unfold determineLeakability
        have : (fIdx, i) ∈ s.2 := hP i (by omega)
        simp [this]
    show ∀ j, j < k + (m + 1) →
      (fIdx, j) ∈ (retAddrLoop fIdx blocks (k :: List.range' (k + 1) m)
        s).2
    intro j hj
    have hstep : retAddrLoop fIdx blocks (k :: List.range' (k + 1) m) s =
        (if (fIdx, k) ∈ s.2 then
          retAddrLoop fIdx blocks (List.range' (k + 1) m)
            ({ s.1 with
               numBBsLeakable := s.1.numBBsLeakable + 1,
               codeSizeLeakableViaRetAddr :=
                 s.1.codeSizeLeakableViaRetAddr + b.size }, s.2)
        else
          retAddrLoop fIdx blocks (List.range' (k + 1) m)
            ({ s.1 with
               numBBsLeakable := s.1.numBBsLeakable + 1,
               codeSizeLeakableViaRetAddr :=
                 s.1.codeSizeLeakableViaRetAddr + b.size,
               codeSizeLeakable := s.1.codeSizeLeakable + b.size },
             s.2 ++ [(fIdx, k)])) := by
      show (match blocks[k]? with
        | none => retAddrLoop fIdx blocks (List.range' (k + 1) m) s
        | some b =>
          if b.isTrap then retAddrLoop fIdx blocks (List.range' (k + 1) m) s
          else if determineLeakability blocks fIdx k s.2 then
            if (fIdx, k) ∈ s.2 then
              retAddrLoop fIdx blocks (List.range' (k + 1) m)
                ({ s.1 with
                   numBBsLeakable := s.1.numBBsLeakable + 1,
                   codeSizeLeakableViaRetAddr :=
                     s.1.codeSizeLeakableViaRetAddr + b.size }, s.2)
            else
              retAddrLoop fIdx blocks (List.range' (k + 1) m)
                ({ s.1 with
                   numBBsLeakable := s.1.numBBsLeakable + 1,
                   codeSizeLeakableViaRetAddr :=
                     s.1.codeSizeLeakableViaRetAddr + b.size,
                   codeSizeLeakable := s.1.codeSizeLeakable + b.size },
                 s.2 ++ [(fIdx, k)])
          else retAddrLoop fIdx blocks (List.range' (k + 1) m) s) = _
      rw [hbk]
      simp only [htrap, Bool.false_eq_true, if_false, hdet, if_true]
    rw [hstep]
    by_cases hmem : (fIdx, k) ∈ s.2
    · rw [if_pos hmem]
      refine ih (k + 1) _ (by omega) ?_ j (by omega)
      intro j' hj'
      rcases Nat.lt_succ_iff_lt_or_eq.mp hj' with h' | h'
      · exact hP j' h'
      · exact h' ▸ hmem
    · rw [if_neg hmem]
      refine ih (k + 1) _ (by omega) ?_ j (by omega)
      intro j' hj'
      rcases Nat.lt_succ_iff_lt_or_eq.mp hj' with h' | h'
      · exact List.mem_append_left _ (hP j' h')
      · exact h' ▸ List.mem_append_right _ (List.mem_singleton_self _)

/-- The marking loops never touch the block/function counters or the total
code size (those are updated only in `processFunc`). -/
theorem funcPtrLoop_counters (fIdx : Nat) (blocks : List MBlock) :
    ∀ (idxs : List Nat) (s : CDLAStats × List (Nat × Nat)),
      (funcPtrLoop fIdx blocks idxs s).1.numBBs = s.1.numBBs ∧
      (funcPtrLoop fIdx blocks idxs s).1.codeSize = s.1.codeSize ∧
      (funcPtrLoop fIdx blocks idxs s).1.numFuncs = s.1.numFuncs ∧
      (funcPtrLoop fIdx blocks idxs s).1.numFuncsLeakable =
        s.1.numFuncsLeakable := by
  intro idxs
  induction idxs with
  | nil => exact fun s => ⟨rfl, rfl, rfl, rfl⟩
  | cons bIdx idxs ih =>
    intro s
    simp only [funcPtrLoop]
    cases hbk : blocks[bIdx]? with
    | none => exact ih s
    | some b =>
      by_cases htrap : b.isTrap
      · simp only [htrap, if_true]
        exact ih s
      · simp only [htrap, Bool.false_eq_true, if_false]
        by_cases hmem : (fIdx, bIdx) ∈ s.2
        · simp only [hmem, if_pos]
          exact ih _
        · simp only [hmem, if_neg, not_false_iff]
          exact ih _

theorem retAddrLoop_counters (fIdx : Nat) (blocks : List MBlock) :
    ∀ (idxs : List Nat) (s : CDLAStats × List (Nat × Nat)),
      (retAddrLoop fIdx blocks idxs s).1.numBBs = s.1.numBBs ∧
      (retAddrLoop fIdx blocks idxs s).1.codeSize = s.1.codeSize ∧
      (retAddrLoop fIdx blocks idxs s).1.numFuncs = s.1.numFuncs ∧
      (retAddrLoop fIdx blocks idxs s).1.numFuncsLeakable =
        s.1.numFuncsLeakable := by
  intro idxs
  induction idxs with
  | nil => exact fun s => ⟨rfl, rfl, rfl, rfl⟩
  | cons bIdx idxs ih =>
    intro s
    simp only [retAddrLoop]
    cases hbk : blocks[bIdx]? with
    | none => exact ih s
    | some b =>
      by_cases htrap : b.isTrap
      · simp only [htrap, if_true]
        exact ih s
      · simp only [htrap, Bool.false_eq_true, if_false]
        by_cases hdet : determineLeakability blocks fIdx bIdx s.2
        · simp only [hdet, if_true]
          by_cases hmem : (fIdx, bIdx) ∈ s.2
          · simp only [hmem, if_pos]
            exact ih _
          · simp only [hmem, if_neg, not_false_iff]
            exact ih _
        · simp only [hdet, Bool.false_eq_true, if_false]
          exact ih s

/-- One-step equation for `funcPtrLoop` at a resolvable index. -/
theorem funcPtrLoop_cons_some (fIdx : Nat) (blocks : List MBlock)
    (bIdx : Nat) (idxs : List Nat) (s : CDLAStats × List (Nat × Nat))
    (b : MBlock) (hbk : blocks[bIdx]? = some b) :
    funcPtrLoop fIdx blocks (bIdx :: idxs) s =
      (if b.isTrap then funcPtrLoop fIdx blocks idxs s
       else
         if (fIdx, bIdx) ∈ s.2 then
           funcPtrLoop fIdx blocks idxs
             ({ s.1 with codeSizeLeakableViaFuncPtr :=
                 s.1.codeSizeLeakableViaFuncPtr + b.size }, s.2)
         else
           funcPtrLoop fIdx blocks idxs
             ({ s.1 with
                codeSizeLeakableViaFuncPtr :=
                  s.1.codeSizeLeakableViaFuncPtr + b.size,
                codeSizeLeakable := s.1.codeSizeLeakable + b.size },
              s.2 ++ [(fIdx, bIdx)])) := by
  simp only [funcPtrLoop]
  rw [hbk]

/-- One-step equation for `funcPtrLoop` at an out-of-range index. -/
theorem funcPtrLoop_cons_none (fIdx : Nat) (blocks : List MBlock)
    (bIdx : Nat) (idxs : List Nat) (s : CDLAStats × List (Nat × Nat))
    (hbk : blocks[bIdx]? = none) :
    funcPtrLoop fIdx blocks (bIdx :: idxs) s =
      funcPtrLoop fIdx blocks idxs s := by
  simp only [funcPtrLoop]
  rw [hbk]

/-- One-step equation for `retAddrLoop` at a resolvable index. -/
theorem retAddrLoop_cons_some (fIdx : Nat) (blocks : List MBlock)
    (bIdx : Nat) (idxs : List Nat) (s : CDLAStats × List (Nat × Nat))
    (b : MBlock) (hbk : blocks[bIdx]? = some b) :
    retAddrLoop fIdx blocks (bIdx :: idxs) s =
      (if b.isTrap then retAddrLoop fIdx blocks idxs s
       else
         if determineLeakability blocks fIdx bIdx s.2 then
           if (fIdx, bIdx) ∈ s.2 then
             retAddrLoop fIdx blocks idxs
               ({ s.1 with
                  numBBsLeakable := s.1.numBBsLeakable + 1,
                  codeSizeLeakableViaRetAddr :=
                    s.1.codeSizeLeakableViaRetAddr + b.size }, s.2)
           else
             retAddrLoop fIdx blocks idxs
               ({ s.1 with
                  numBBsLeakable := s.1.numBBsLeakable + 1,
                  codeSizeLeakableViaRetAddr :=
                    s.1.codeSizeLeakableViaRetAddr + b.size,
                  codeSizeLeakable := s.1.codeSizeLeakable + b.size },
                s.2 ++ [(fIdx, bIdx)])
         else retAddrLoop fIdx blocks idxs s) := by
  simp only [retAddrLoop]
  rw [hbk]

/-- One-step equation for `retAddrLoop` at an out-of-range index. -/
theorem retAddrLoop_cons_none (fIdx : Nat) (blocks : List MBlock)
    (bIdx : Nat) (idxs : List Nat) (s : CDLAStats × List (Nat × Nat))
    (hbk : blocks[bIdx]? = none) :
    retAddrLoop fIdx blocks (bIdx :: idxs) s =
      retAddrLoop fIdx blocks idxs s := by
  simp only [retAddrLoop]
  rw [hbk]

/-- Zeroing trap-block sizes: the per-block map. -/
def ztb (b : MBlock) : MBlock :=
  if b.isTrap then { b with size := 0 } else b

theorem ztb_isTrap (b : MBlock) : (ztb b).isTrap = b.isTrap := by
  unfold ztb
  by_cases h : b.isTrap
  · rw [if_pos h]
  · rw [if_neg h]

theorem ztb_lastInstr (b : MBlock) :
    (ztb b).lastInstrLeakyCall = b.lastInstrLeakyCall := by
  unfold ztb
  by_cases h : b.isTrap
  · rw [if_pos h]
  · rw [if_neg h]

theorem ztb_hasNonLast (b : MBlock) :
    (ztb b).hasNonLastLeakyCall = b.hasNonLastLeakyCall := by
  unfold ztb
  by_cases h : b.isTrap
  · rw [if_pos h]
  · rw [if_neg h]

theorem ztb_of_not_trap {b : MBlock} (h : b.isTrap = false) : ztb b = b := by
  unfold ztb
  rw [h]
  rfl

/-- `determineLeakability` ignores trap-block sizes. -/
theorem determineLeakability_ztb (blocks : List MBlock) (fIdx bIdx : Nat)
    (lk : List (Nat × Nat)) :
    determineLeakability (blocks.map ztb) fIdx bIdx lk =
      determineLeakability blocks fIdx bIdx lk := by
  cases bIdx with
  | zero =>
    unfold determineLeakability
    rw [List.getElem?_map]
    cases hB : blocks[0]? with
    | none => rfl
    | some b =>
      show (false || (ztb b).hasNonLastLeakyCall) =
        (false || b.hasNonLastLeakyCall)
      rw [ztb_hasNonLast]
  | succ i =>
    unfold determineLeakability
    show ((decide ((fIdx, i) ∈ lk) ||
        (match (blocks.map ztb)[i]? with
         | some pb => pb.lastInstrLeakyCall
         | none => false)) ||
      (match (blocks.map ztb)[i + 1]? with
       | some b => b.hasNonLastLeakyCall
       | none => false)) =
      ((decide ((fIdx, i) ∈ lk) ||
        (match blocks[i]? with
         | some pb => pb.lastInstrLeakyCall
         | none => false)) ||
      (match blocks[i + 1]? with
       | some b => b.hasNonLastLeakyCall
       | none => false))
    rw [List.getElem?_map, List.getElem?_map]
    cases hP : blocks[i]? with
    | none =>
      cases hB : blocks[i + 1]? with
      | none => rfl
      | some b =>
        show ((decide ((fIdx, i) ∈ lk) || false) ||
            (ztb b).hasNonLastLeakyCall) =
          ((decide ((fIdx, i) ∈ lk) || false) || b.hasNonLastLeakyCall)
        rw [ztb_hasNonLast]
    | some pb =>
      cases hB : blocks[i + 1]? with
      | none =>
        show ((decide ((fIdx, i) ∈ lk) || (ztb pb).lastInstrLeakyCall) ||
            false) =
          ((decide ((fIdx, i) ∈ lk) || pb.lastInstrLeakyCall) || false)
        rw [ztb_lastInstr]
      | some b =>
        show ((decide ((fIdx, i) ∈ lk) || (ztb pb).lastInstrLeakyCall) ||
            (ztb b).hasNonLastLeakyCall) =
          ((decide ((fIdx, i) ∈ lk) || pb.lastInstrLeakyCall) ||
            b.hasNonLastLeakyCall)
        rw [ztb_lastInstr, ztb_hasNonLast]

theorem funcPtrLoop_ztb (fIdx : Nat) (blocks : List MBlock) :
    ∀ (idxs : List Nat) (s : CDLAStats × List (Nat × Nat)),
      funcPtrLoop fIdx (blocks.map ztb) idxs s =
        funcPtrLoop fIdx blocks idxs s := by
  intro idxs
  induction idxs with
  | nil => exact fun s => rfl
  | cons bIdx idxs ih =>
    intro s
    cases hbk : blocks[bIdx]? with
    | none =>
      have hbk2 : (blocks.map ztb)[bIdx]? = none := by
        rw [List.getElem?_map, hbk]
        rfl
      rw [funcPtrLoop_cons_none fIdx (blocks.map ztb) bIdx idxs s hbk2,
        funcPtrLoop_cons_none fIdx blocks bIdx idxs s hbk, ih]
    | some b =>
      have hbk2 : (blocks.map ztb)[bIdx]? = some (ztb b) := by
        rw [List.getElem?_map, hbk]
        rfl
      rw [funcPtrLoop_cons_some fIdx (blocks.map ztb) bIdx idxs s
          (ztb b) hbk2,
        funcPtrLoop_cons_some fIdx blocks bIdx idxs s b hbk]
      by_cases htrap : b.isTrap
      · rw [if_pos (by rw [ztb_isTrap]; exact htrap), if_pos htrap, ih]
      · rw [ztb_of_not_trap (Bool.not_eq_true b.isTrap ▸ htrap)]
        rw [if_neg htrap, if_neg htrap]
        by_cases hmem : (fIdx, bIdx) ∈ s.2
        · rw [if_pos hmem, if_pos hmem, ih]
        · rw [if_neg hmem, if_neg hmem, ih]

theorem retAddrLoop_ztb (fIdx : Nat) (blocks : List MBlock) :
    ∀ (idxs : List Nat) (s : CDLAStats × List (Nat × Nat)),
      retAddrLoop fIdx (blocks.map ztb) idxs s =
        retAddrLoop fIdx blocks idxs s := by
  intro idxs
  induction idxs with
  | nil => exact fun s => rfl
  | cons bIdx idxs ih =>
    intro s
    cases hbk : blocks[bIdx]? with
    | none =>
      have hbk2 : (blocks.map ztb)[bIdx]? = none := by
        rw [List.getElem?_map, hbk]
        rfl
      rw [retAddrLoop_cons_none fIdx (blocks.map ztb) bIdx idxs s hbk2,
        retAddrLoop_cons_none fIdx blocks bIdx idxs s hbk, ih]
    | some b =>
      have hbk2 : (blocks.map ztb)[bIdx]? = some (ztb b) := by
        rw [List.getElem?_map, hbk]
        rfl
      rw [retAddrLoop_cons_some fIdx (blocks.map ztb) bIdx idxs s
          (ztb b) hbk2,
        retAddrLoop_cons_some fIdx blocks bIdx idxs s b hbk,
        determineLeakability_ztb]
      by_cases htrap : b.isTrap
      · rw [if_pos (by rw [ztb_isTrap]; exact htrap), if_pos htrap, ih]
      · rw [ztb_of_not_trap (Bool.not_eq_true b.isTrap ▸ htrap)]
        rw [if_neg htrap, if_neg htrap]
        by_cases hdet : determineLeakability blocks fIdx bIdx s.2
        · rw [if_pos hdet, if_pos hdet]
          by_cases hmem : (fIdx, bIdx) ∈ s.2
          · rw [if_pos hmem, if_pos hmem, ih]
          · rw [if_neg hmem, if_neg hmem, ih]
        · rw [if_neg hdet, if_neg hdet, ih]

theorem countNonTrap_ztb (blocks : List MBlock) :
    countNonTrap (blocks.map ztb) = countNonTrap blocks := by
  unfold countNonTrap
  induction blocks with
  | nil => rfl
  | cons b rest ih =>
    simp only [List.map_cons, List.filter_cons, ztb_isTrap]
    by_cases h : b.isTrap
    · simp only [h, Bool.not_true]
      exact ih
    · have h2 : (!b.isTrap) = true := by
        rw [Bool.not_eq_true] at h
        rw [h]
        rfl
      simp only [h2, if_pos]
      rw [List.length_cons, List.length_cons, ih]

theorem sumNonTrap_ztb (blocks : List MBlock) :
    sumNonTrap (blocks.map ztb) = sumNonTrap blocks := by
  unfold sumNonTrap
  induction blocks with
  | nil => rfl
  | cons b rest ih =>
    simp only [List.map_cons, List.filter_cons, ztb_isTrap]
    by_cases h : b.isTrap
    · simp only [h, Bool.not_true]
      exact ih
    · have h2 : (!b.isTrap) = true := by
        rw [Bool.not_eq_true] at h
        rw [h]
        rfl
      simp only [h2, if_pos]
      rw [List.map_cons, List.map_cons, List.sum_cons, List.sum_cons, ih,
        ztb_of_not_trap (Bool.not_eq_true b.isTrap ▸ h)]

theorem processFunc_ztb (fIdx : Nat) (F : CFunc)
    (s : CDLAStats × List (Nat × Nat)) :
    processFunc fIdx { F with blocks := F.blocks.map ztb } s =
      processFunc fIdx F s := by
  unfold processFunc
  simp only [countNonTrap_ztb, sumNonTrap_ztb, List.length_map,
    funcPtrLoop_ztb, retAddrLoop_ztb]

theorem goFuncs_ztb :
    ∀ (fs : List CFunc) (fIdx : Nat) (s : CDLAStats × List (Nat × Nat)),
      goFuncs fIdx (fs.map fun F => { F with blocks := F.blocks.map ztb })
        s = goFuncs fIdx fs s := by
  intro fs
  induction fs with
  | nil => exact fun fIdx s => rfl
  | cons F rest ih =>
    intro fIdx s
    show goFuncs (fIdx + 1)
        (rest.map fun F => { F with blocks := F.blocks.map ztb })
        (processFunc fIdx { F with blocks := F.blocks.map ztb } s) =
      goFuncs (fIdx + 1) rest (processFunc fIdx F s)
    rw [processFunc_ztb, ih]

/-- Counter accumulation of one function visit. -/
theorem processFunc_counters (fIdx : Nat) (F : CFunc)
    (s : CDLAStats × List (Nat × Nat)) :
    (processFunc fIdx F s).1.numBBs = s.1.numBBs + countNonTrap F.blocks ∧
    (processFunc fIdx F s).1.codeSize = s.1.codeSize + sumNonTrap F.blocks ∧
    (processFunc fIdx F s).1.numFuncs = s.1.numFuncs + 1 := by
  unfold processFunc
  by_cases hAT : F.reallyAddressTaken
  · simp only [hAT, if_true]
    obtain ⟨r1, r2, r3, -⟩ := retAddrLoop_counters fIdx F.blocks
      (List.range F.blocks.length)
      (funcPtrLoop fIdx F.blocks (List.range F.blocks.length)
        ({ numFuncs := s.1.numFuncs + 1,
           numBBs := s.1.numBBs + countNonTrap F.blocks,
           codeSize := s.1.codeSize + sumNonTrap F.blocks,
           codeSizeLeakable := s.1.codeSizeLeakable,
           codeSizeLeakableViaFuncPtr := s.1.codeSizeLeakableViaFuncPtr,
           codeSizeLeakableViaRetAddr := s.1.codeSizeLeakableViaRetAddr,
           numFuncsLeakable := s.1.numFuncsLeakable + 1,
           numBBsLeakable := s.1.numBBsLeakable }, s.2))
    obtain ⟨f1, f2, f3, -⟩ := funcPtrLoop_counters fIdx F.blocks
      (List.range F.blocks.length)
      ({ numFuncs := s.1.numFuncs + 1,
         numBBs := s.1.numBBs + countNonTrap F.blocks,
         codeSize := s.1.codeSize + sumNonTrap F.blocks,
         codeSizeLeakable := s.1.codeSizeLeakable,
         codeSizeLeakableViaFuncPtr := s.1.codeSizeLeakableViaFuncPtr,
         codeSizeLeakableViaRetAddr := s.1.codeSizeLeakableViaRetAddr,
         numFuncsLeakable := s.1.numFuncsLeakable + 1,
         numBBsLeakable := s.1.numBBsLeakable }, s.2)
    exact ⟨by rw [r1, f1], by rw [r2, f2], by rw [r3, f3]⟩
  · simp only [hAT, Bool.false_eq_true, if_false]
    obtain ⟨r1, r2, r3, -⟩ := retAddrLoop_counters fIdx F.blocks
      (List.range F.blocks.length)
      ({ numFuncs := s.1.numFuncs + 1,
         numBBs := s.1.numBBs + countNonTrap F.blocks,
         codeSize := s.1.codeSize + sumNonTrap F.blocks,
         codeSizeLeakable := s.1.codeSizeLeakable,
         codeSizeLeakableViaFuncPtr := s.1.codeSizeLeakableViaFuncPtr,
         codeSizeLeakableViaRetAddr := s.1.codeSizeLeakableViaRetAddr,
         numFuncsLeakable := s.1.numFuncsLeakable,
         numBBsLeakable := s.1.numBBsLeakable }, s.2)
    exact ⟨by rw [r1], by rw [r2], by rw [r3]⟩

/-- Accumulated counters over the function loop: only non-trap blocks are
counted and sized. -/
theorem goFuncs_counters :
    ∀ (fs : List CFunc) (fIdx : Nat) (s : CDLAStats × List (Nat × Nat)),
      (goFuncs fIdx fs s).1.numBBs =
        s.1.numBBs + (fs.map (fun F => countNonTrap F.blocks)).sum ∧
      (goFuncs fIdx fs s).1.codeSize =
        s.1.codeSize + (fs.map (fun F => sumNonTrap F.blocks)).sum := by
  intro fs
  induction fs with
  | nil => exact fun fIdx s => ⟨by simp [goFuncs], by simp [goFuncs]⟩
  | cons F rest ih =>
    intro fIdx s
    show (goFuncs (fIdx + 1) rest (processFunc fIdx F s)).1.numBBs = _ ∧
      (goFuncs (fIdx + 1) rest (processFunc fIdx F s)).1.codeSize = _
    obtain ⟨i1, i2⟩ := ih (fIdx + 1) (processFunc fIdx F s)
    obtain ⟨p1, p2, -⟩ := processFunc_counters fIdx F s
    constructor
    · rw [i1, p1]
      simp only [List.map_cons, List.sum_cons]
      omega
    · rw [i2, p2]
      simp only [List.map_cons, List.sum_cons]
      omega

/-- Every id the function-pointer loop adds to the set denotes a non-trap
block of the visited function. -/
theorem funcPtrLoop_set_inv (P : Nat × Nat → Prop) (fIdx : Nat)
    (blocks : List MBlock)
    (hins : ∀ bIdx b, blocks[bIdx]? = some b → b.isTrap = false →
      P (fIdx, bIdx)) :
    ∀ (idxs : List Nat) (s : CDLAStats × List (Nat × Nat)),
      (∀ id ∈ s.2, P id) →
      ∀ id ∈ (funcPtrLoop fIdx blocks idxs s).2, P id := by
  intro idxs
  induction idxs with
  | nil => exact fun s hs => hs
  | cons bIdx idxs ih =>
    intro s hs
    cases hbk : blocks[bIdx]? with
    | none =>
      rw [funcPtrLoop_cons_none fIdx blocks bIdx idxs s hbk]
      exact ih s hs
    | some b =>
      rw [funcPtrLoop_cons_some fIdx blocks bIdx idxs s b hbk]
      by_cases htrap : b.isTrap
      · rw [if_pos htrap]
        exact ih s hs
      · rw [if_neg htrap]
        by_cases hmem : (fIdx, bIdx) ∈ s.2
        · rw [if_pos hmem]
          exact ih _ hs
        · rw [if_neg hmem]
          refine ih _ ?_
          intro id hid
          rcases List.mem_append.mp hid with hid | hid
          · exact hs id hid
          · rw [List.mem_singleton.mp hid]
            exact hins bIdx b hbk (Bool.not_eq_true b.isTrap ▸ htrap)

/-- Every id the return-address loop adds to the set denotes a non-trap
block of the visited function. -/
theorem retAddrLoop_set_inv (P : Nat × Nat → Prop) (fIdx : Nat)
    (blocks : List MBlock)
    (hins : ∀ bIdx b, blocks[bIdx]? = some b → b.isTrap = false →
      P (fIdx, bIdx)) :
    ∀ (idxs : List Nat) (s : CDLAStats × List (Nat × Nat)),
      (∀ id ∈ s.2, P id) →
      ∀ id ∈ (retAddrLoop fIdx blocks idxs s).2, P id := by
  intro idxs
  induction idxs with
  | nil => exact fun s hs => hs
  | cons bIdx idxs ih =>
    intro s hs
    cases hbk : blocks[bIdx]? with
    | none =>
      rw [retAddrLoop_cons_none fIdx blocks bIdx idxs s hbk]
      exact ih s hs
    | some b =>
      rw [retAddrLoop_cons_some fIdx blocks bIdx idxs s b hbk]
      by_cases htrap : b.isTrap
      · rw [if_pos htrap]
        exact ih s hs
      · rw [if_neg htrap]
        by_cases hdet : determineLeakability blocks fIdx bIdx s.2
        · rw [if_pos hdet]
          by_cases hmem : (fIdx, bIdx) ∈ s.2
          · rw [if_pos hmem]
            exact ih _ hs
          · rw [if_neg hmem]
            refine ih _ ?_
            intro id hid
            rcases List.mem_append.mp hid with hid | hid
            · exact hs id hid
            · rw [List.mem_singleton.mp hid]
              exact hins bIdx b hbk (Bool.not_eq_true b.isTrap ▸ htrap)
        · rw [if_neg hdet]
          exact ih s hs

theorem processFunc_set_inv (P : Nat × Nat → Prop) (fIdx : Nat) (F : CFunc)
    (hins : ∀ bIdx b, F.blocks[bIdx]? = some b → b.isTrap = false →
      P (fIdx, bIdx))
    (s : CDLAStats × List (Nat × Nat)) (hs : ∀ id ∈ s.2, P id) :
    ∀ id ∈ (processFunc fIdx F s).2, P id := by
  unfold processFunc
  by_cases hAT : F.reallyAddressTaken
  · simp only [hAT, if_true]
    exact retAddrLoop_set_inv P fIdx F.blocks hins _ _
      (funcPtrLoop_set_inv P fIdx F.blocks hins _ _ hs)
  · simp only [hAT, Bool.false_eq_true, if_false]
    exact retAddrLoop_set_inv P fIdx F.blocks hins _ _ hs

theorem goFuncs_set_inv (P : Nat × Nat → Prop) :
    ∀ (fs : List CFunc) (fIdx : Nat)
      (hfs : ∀ j F', fs[j]? = some F' →
        ∀ bIdx b, F'.blocks[bIdx]? = some b → b.isTrap = false →
          P (fIdx + j, bIdx))
      (s : CDLAStats × List (Nat × Nat)),
      (∀ id ∈ s.2, P id) →
      ∀ id ∈ (goFuncs fIdx fs s).2, P id := by
  intro fs
  induction fs with
  | nil => exact fun fIdx hfs s hs => hs
  | cons F rest ih =>
    intro fIdx hfs s hs
    show ∀ id ∈ (goFuncs (fIdx + 1) rest (processFunc fIdx F s)).2, P id
    refine ih (fIdx + 1) ?_ _ ?_
    · intro j F' hj bIdx b hb hnt
      have := hfs (j + 1) F' (by simpa using hj) bIdx b hb hnt
      have harith : fIdx + (j + 1) = fIdx + 1 + j := by omega
      rwa [harith] at this
    · exact processFunc_set_inv P fIdx F
        (fun bIdx b hb hnt => by
          have := hfs 0 F (by simp) bIdx b hb hnt
          simpa using this) s hs

end CDLA

end Randezvous

/--
C4: `canSpillLinkRegister(F)` returns true for every function with no
machine-function body (externally defined), for every function whose
callee-saved-register info is not yet finalized, and for every function whose
callee-saved register set includes LR; it returns false for a leaf function
with finalized callee-saved info, an empty callee-saved set, and no tail-call
instructions.
-/
theorem canSpillLinkRegister_spec (env : List Randezvous.CDLA.Func)
    (fuel f : Nat) (hfuel : 0 < fuel) :
    (Randezvous.CDLA.getMF env f = none →
      Randezvous.CDLA.canSpillLinkRegister env fuel f = true) ∧
    (∀ mf : Randezvous.CDLA.MFunc, Randezvous.CDLA.getMF env f = some mf →
      mf.csiValid = false →
      Randezvous.CDLA.canSpillLinkRegister env fuel f = true) ∧
    (∀ mf : Randezvous.CDLA.MFunc, Randezvous.CDLA.getMF env f = some mf →
      Randezvous.CDLA.LR ∈ mf.csRegs →
      Randezvous.CDLA.canSpillLinkRegister env fuel f = true) ∧
    (∀ mf : Randezvous.CDLA.MFunc, Randezvous.CDLA.getMF env f = some mf →
      mf.csiValid = true → mf.csRegs = [] →
      (∀ i ∈ mf.insts, i = Randezvous.CDLA.TInst.other) →
      Randezvous.CDLA.canSpillLinkRegister env fuel f = false) := by
  obtain ⟨fuel, rfl⟩ : ∃ n, fuel = n + 1 :=
    ⟨fuel - 1, (Nat.succ_pred_eq_of_pos hfuel).symm⟩
  refine ⟨?_, ?_, ?_, ?_⟩
  · intro h
    simp [Randezvous.CDLA.canSpillLinkRegister, h]
  · intro mf h hcsi
    simp [Randezvous.CDLA.canSpillLinkRegister, h, hcsi]
  · intro mf h hlr
    by_cases hcsi : mf.csiValid <;>
      simp [Randezvous.CDLA.canSpillLinkRegister, h, hcsi, Or.inl hlr]
  · intro mf h hcsi hcs hinsts
    simp only [Randezvous.CDLA.canSpillLinkRegister, h, hcsi, hcs]
    simp only [Bool.not_true, List.contains_nil, Bool.false_eq_true, if_false,
      List.any_eq_false]
    intro i hi
    rw [hinsts i hi]
    simp

/-- Witness for C4 at a concrete environment: one external function, one
function with unfinalized callee-saved info, one that saves LR, and one leaf
function with an empty callee-saved set. -/
theorem canSpillLinkRegister_spec_witness :
    Randezvous.CDLA.canSpillLinkRegister
      [⟨none⟩,
       ⟨some ⟨false, [], []⟩⟩,
       ⟨some ⟨true, [4, Randezvous.CDLA.LR], []⟩⟩,
       ⟨some ⟨true, [], [Randezvous.CDLA.TInst.other]⟩⟩] 3 3 = false := by
  have h := canSpillLinkRegister_spec
    [⟨none⟩,
     ⟨some ⟨false, [], []⟩⟩,
     ⟨some ⟨true, [4, Randezvous.CDLA.LR], []⟩⟩,
     ⟨some ⟨true, [], [Randezvous.CDLA.TInst.other]⟩⟩] 3 3 (by decide)
  exact h.2.2.2 ⟨true, [], [Randezvous.CDLA.TInst.other]⟩ (by decide) rfl rfl
    (by intro i hi; simpa using hi)

open Randezvous.LGP in
/--
C8: for every function belonging to a call-graph SCC that contains a cycle
(self-recursive or mutually recursive, expressed as the function lying on a
nonempty call-graph cycle), LGPromote leaves the function entirely unchanged:
its alloca list is untouched and it contributes no replacement globals.
-/
theorem lgpromote_skips_recursive_scc (M : ModuleLG) (i : Nat)
    (h : Relation.TransGen (Edge M.funcs) i i) :
    (runOnModuleLGP true M).funcs[i]? = M.funcs[i]? ∧
    promoteFunc M.funcs i (M.funcs.getD i ⟨[], []⟩) =
      (M.funcs.getD i ⟨[], []⟩, []) := by
  have hc : sccHasCycle M.funcs i = true := (sccHasCycle_iff _ _).mpr h
  have hpf : promoteFunc M.funcs i (M.funcs.getD i ⟨[], []⟩) =
      (M.funcs.getD i ⟨[], []⟩, []) := by
    simp [promoteFunc, hc]
  refine ⟨?_, hpf⟩
  show (((List.range M.funcs.length).map fun j =>
      promoteFunc M.funcs j (M.funcs.getD j ⟨[], []⟩)).map Prod.fst)[i]? =
    M.funcs[i]?
  rw [List.getElem?_map, List.getElem?_map]
  by_cases hlt : i < M.funcs.length
  · obtain ⟨v, hv⟩ : ∃ v, M.funcs[i]? = some v := by
      cases hq : M.funcs[i]? with
      | none =>
        rw [List.getElem?_eq_none_iff] at hq
        omega
      | some v => exact ⟨v, rfl⟩
    have hgd : M.funcs.getD i ⟨[], []⟩ = v := by
      rw [List.getD_eq_getElem?_getD, hv, Option.getD_some]
    have h3 : (promoteFunc M.funcs i (M.funcs.getD i ⟨[], []⟩)).1 = v := by
      rw [hpf, hgd]
    rw [List.getElem?_range hlt, hv]
    exact congrArg some h3
  · have h1 : M.funcs[i]? = none := by
      rw [List.getElem?_eq_none_iff]
      omega
    have h2 : (List.range M.funcs.length)[i]? = none := by
      rw [List.getElem?_eq_none_iff, List.length_range]
      omega
    simp [h1, h2]

open Randezvous.LGP in
/-- Witness for C8 at a concrete self-recursive module: one function that
calls itself and holds a promotable static alloca; it is left untouched. -/
theorem lgpromote_skips_recursive_scc_witness :
    (runOnModuleLGP true
        ⟨[⟨[⟨LType.ptr true, true, 4⟩], [0]⟩], []⟩).funcs[0]? =
      ([⟨[⟨LType.ptr true, true, 4⟩], [0]⟩] :
        List FuncLG)[0]? ∧
    promoteFunc [⟨[⟨LType.ptr true, true, 4⟩], [0]⟩] 0
        (([⟨[⟨LType.ptr true, true, 4⟩], [0]⟩] :
          List FuncLG).getD 0 ⟨[], []⟩) =
      (([⟨[⟨LType.ptr true, true, 4⟩], [0]⟩] :
        List FuncLG).getD 0 ⟨[], []⟩, []) := by
  exact lgpromote_skips_recursive_scc
    ⟨[⟨[⟨LType.ptr true, true, 4⟩], [0]⟩], []⟩ 0
    (Relation.TransGen.single (by simp [Edge, calleesOf]))

open Randezvous.LGP in
/--
C7 counterexample: the claim says the replacement global's initializer is
non-zero in exactly the *function-pointer-shaped* subfields.  For a static
alloca of type `struct { void (*f)(); int *p; }` in a non-recursive function,
the created initializer is non-zero at both pointer subfields, although only
the first is function-pointer-shaped.
-/
theorem lgpromote_initializer_counterexample :
    ((runOnModuleLGP true
        ⟨[⟨[⟨LType.struct [LType.ptr true, LType.ptr false], true, 4⟩], []⟩],
          []⟩).globals.map fun g => flattenConst g.init) ≠
      ((runOnModuleLGP true
        ⟨[⟨[⟨LType.struct [LType.ptr true, LType.ptr false], true, 4⟩], []⟩],
          []⟩).globals.map fun g => (flattenTy g.ty).map isFnPtrLeaf) := by
  decide

open Randezvous.LGP in
/--
C7 (amended): for every fixed-size (static) local alloca promoted by
LGPromote in a non-recursive function, the replacement global variable has
the local's type and alignment and an initializer that is non-zero in exactly
the *pointer-shaped* subfields (of any pointee type, recursing through arrays
and structs) and zero in all other subfields.
-/
theorem lgpromote_initializer_spec (M : ModuleLG) (i : Nat)
    (h : ¬ Relation.TransGen (Edge M.funcs) i i) :
    (promoteFunc M.funcs i (M.funcs.getD i ⟨[], []⟩)).2 =
      ((M.funcs.getD i ⟨[], []⟩).allocas.filter promotable).map
        (fun a => ⟨a.ty, a.align, createNonZeroInitializerFor a.ty⟩) ∧
    (promoteFunc M.funcs i (M.funcs.getD i ⟨[], []⟩)).1.allocas =
      (M.funcs.getD i ⟨[], []⟩).allocas.filter (fun a => !promotable a) ∧
    ∀ g ∈ (promoteFunc M.funcs i (M.funcs.getD i ⟨[], []⟩)).2,
      flattenConst g.init = (flattenTy g.ty).map isPtrLeaf := by
  have hc : sccHasCycle M.funcs i = false := by
    cases hq : sccHasCycle M.funcs i with
    | false => rfl
    | true => exact absurd ((sccHasCycle_iff _ _).mp hq) h
  refine ⟨?_, ?_, ?_⟩
  · simp [promoteFunc, hc]
  · simp [promoteFunc, hc]
  · intro g hg
    simp only [promoteFunc, hc, Bool.false_eq_true, if_false, List.mem_map]
      at hg
    obtain ⟨a, _, rfl⟩ := hg
    exact flattenConst_createNonZeroInitializerFor a.ty

open Randezvous.LGP in
/-- Witness for C7 (amended) at a concrete non-recursive module with one
promotable alloca of type `struct { void (*f)(); int *p; int n; }`. -/
theorem lgpromote_initializer_spec_witness :
    (promoteFunc
        [(⟨[⟨LType.struct [LType.ptr true, LType.ptr false, LType.scalar],
             true, 8⟩], []⟩ : FuncLG)] 0
        (([(⟨[⟨LType.struct [LType.ptr true, LType.ptr false, LType.scalar],
             true, 8⟩], []⟩ : FuncLG)]).getD 0 ⟨[], []⟩)).2.map
      (fun g => flattenConst g.init) = [[true, true, false]] := by
  have h := lgpromote_initializer_spec
    ⟨[(⟨[⟨LType.struct [LType.ptr true, LType.ptr false, LType.scalar],
         true, 8⟩], []⟩ : FuncLG)], []⟩ 0
    (by
      intro hcyc
      have : (0 : Nat) ∈ reachSet
          [(⟨[⟨LType.struct [LType.ptr true, LType.ptr false, LType.scalar],
               true, 8⟩], []⟩ : FuncLG)] 0 :=
        reachSet_complete _ 0 0 hcyc
      revert this
      decide)
  rw [h.1]
  decide

open Randezvous.ICL in
/--
C9: after the Indirect Call Register Limiter runs with the feature enabled,
every indirect-call instruction's target register belongs to the restricted
tcGPR class {R0-R3, R12}: a virtual target register is constrained to that
class, and a physical target register outside the class is replaced by a
fresh virtual register of that class filled by a plain copy when the call is
unconditional or a predicated move when the call is predicated, with the call
opcode retagged to the marked variant.
-/
theorem icall_limiter_spec (mri : MRI) (mf : List (List MInst))
    (hfam : ∀ bb ∈ mf, ∀ mi ∈ bb, ∀ pred v,
      mi = MInst.tBLXr pred (Reg.virt v) →
      GPRFamily (getRegClass mri v) = true)
    (hnm : ∀ bb ∈ mf, ∀ mi ∈ bb, ∀ pred t,
      mi ≠ MInst.tBLXr_Randezvous pred t) :
    (∀ bb ∈ (runOnMachineFunction true mri mf).2, ∀ mi ∈ bb,
       isUnmarkedICall mi = false ∧
       ∀ pred t, mi = MInst.tBLXr_Randezvous pred t →
         regInTcGPR (runOnMachineFunction true mri mf).1 t = true) ∧
    (∀ (m : MRI) (r : Nat), tcGPR.contains r = false →
       limitICall m (MInst.tBLXr Pred.al (Reg.phys r)) =
         ((createVirtualRegister m).1,
          [MInst.copy (Reg.virt (createVirtualRegister m).2) (Reg.phys r),
           MInst.tBLXr_Randezvous Pred.al
             (Reg.virt (createVirtualRegister m).2)])) ∧
    (∀ (m : MRI) (r cc pr : Nat), tcGPR.contains r = false →
       limitICall m (MInst.tBLXr (Pred.cond cc pr) (Reg.phys r)) =
         ((createVirtualRegister m).1,
          [MInst.tMOVr (Reg.virt (createVirtualRegister m).2) (Reg.phys r)
             (Pred.cond cc pr),
           MInst.tBLXr_Randezvous (Pred.cond cc pr)
             (Reg.virt (createVirtualRegister m).2)])) ∧
    (∀ (m : MRI) (pred : Pred) (v : Nat),
       limitICall m (MInst.tBLXr pred (Reg.virt v)) =
         (constrainRegClass m v,
          [MInst.tBLXr_Randezvous pred (Reg.virt v)])) := by
  refine ⟨?_, ?_, ?_, ?_⟩
  · show ∀ bb ∈ (limitBlocks mri mf).2, ∀ mi ∈ bb,
      isUnmarkedICall mi = false ∧
      ∀ pred t, mi = MInst.tBLXr_Randezvous pred t →
        regInTcGPR (limitBlocks mri mf).1 t = true
    exact limitBlocks_correct hfam hnm
  · intro m r hr
    simp only [limitICall, hr, Bool.false_eq_true, if_false]
  · intro m r cc pr hr
    simp only [limitICall, hr, Bool.false_eq_true, if_false]
  · intro m pred v
    rfl

open Randezvous.ICL in
/-- Witness for C9 at a concrete machine function: one indirect call through
a GPR-class virtual register; after the run its register class is tcGPR. -/
theorem icall_limiter_spec_witness :
    regInTcGPR (runOnMachineFunction true ⟨[RegClass.GPRClass]⟩
      [[MInst.tBLXr Pred.al (Reg.virt 0)]]).1 (Reg.virt 0) = true := by
  have h := icall_limiter_spec ⟨[RegClass.GPRClass]⟩
    [[MInst.tBLXr Pred.al (Reg.virt 0)]]
    (by
      intro bb hbb mi hmi pred v heq
      simp only [List.mem_singleton] at hbb
      subst hbb
      simp only [List.mem_singleton] at hmi
      subst hmi
      injection heq with h1 h2
      injection h2 with h3
      subst h3
      decide)
    (by
      intro bb hbb mi hmi pred t heq
      simp only [List.mem_singleton] at hbb
      subst hbb
      simp only [List.mem_singleton] at hmi
      subst hmi
      simp at heq)
  exact (h.1 [MInst.tBLXr_Randezvous Pred.al (Reg.virt 0)] (by decide)
    (MInst.tBLXr_Randezvous Pred.al (Reg.virt 0)) (by decide)).2
    Pred.al (Reg.virt 0) rfl

open Randezvous.GDLR in
/--
C1: for every storage class (rodata, data, bss), when GDLR's runOnModule
completes (that is, the pass is enabled and each class's pre-existing real
footprint is within its configured capacity, which the pass asserts), the
sum of the real global objects' sizes plus the sum of all inserted decoy
(garbage) objects' sizes in that class is at most the class's configured
capacity; the truncated proportional share allocation never over-allocates
the remaining budget.
-/
theorem gdlr_capacity (cfg : GDLRConfig) (ptrSize : Nat) (rng : Nat → Nat)
    (permR permD permB drawsR drawsD drawsB tb : List Nat)
    (gvs : List GVRec) (out : GDLRRun)
    (hpR : permR.Perm (List.range (gvs.filter isRodataGV).length))
    (hpD : permD.Perm (List.range (gvs.filter isDataGV).length))
    (hpB : permB.Perm (List.range (gvs.filter isBssGV).length))
    (hrun : runOnModule cfg ptrSize rng permR permD permB drawsR drawsD
      drawsB tb gvs = some out) :
    ((out.rodataEntries.map entrySize).sum ≤ cfg.maxRodataSize) ∧
    ((out.dataEntries.map entrySize).sum ≤ cfg.maxDataSize) ∧
    ((out.bssEntries.map entrySize).sum ≤ cfg.maxBssSize) := by
  unfold runOnModule at hrun
  split at hrun
  · exact absurd hrun (by simp)
  · split at hrun
    · next hguard =>
      obtain ⟨h1, h2, h3⟩ := hguard
      have hout := Option.some.inj hrun
      subst hout
      refine ⟨?_, ?_, ?_⟩
      · show ((classLayout (insertForClass cfg.enableGRBG ptrSize
            ((applyPerm permR (gvs.filter isRodataGV)).zip
              (shares (mkWeights drawsR
                  (applyPerm permR (gvs.filter isRodataGV)).length)
                ((cfg.maxRodataSize -
                  sumSizes (gvs.filter isRodataGV)) / ptrSize)))
            ⟨rng, 0, tb, tb, []⟩).1).map entrySize).sum ≤ cfg.maxRodataSize
        exact class_capacity cfg.enableGRBG ptrSize _ permR hpR drawsR
          cfg.maxRodataSize h1 _
      · exact class_capacity cfg.enableGRBG ptrSize _ permD hpD drawsD
          cfg.maxDataSize h2 _
      · exact class_capacity cfg.enableGRBG ptrSize _ permB hpB drawsB
          cfg.maxBssSize h3 _
    · exact absurd hrun (by simp)

open Randezvous.GDLR in
/-- Witness for C1 at a concrete module: one 4-byte rodata global with an
8-byte rodata capacity, pointer size 4. -/
theorem gdlr_capacity_witness :
    (((runGDLRBody ⟨true, false, 8, 0, 0⟩ 4 (fun _ => 0) [0] [] [] [] [] []
        [] [⟨4, true, true, false, none⟩]).rodataEntries.map
      entrySize).sum ≤ 8) := by
  have h := gdlr_capacity ⟨true, false, 8, 0, 0⟩ 4 (fun _ => 0) [0] [] []
    [] [] [] [] [⟨4, true, true, false, none⟩]
    (runGDLRBody ⟨true, false, 8, 0, 0⟩ 4 (fun _ => 0) [0] [] [] [] [] []
      [] [⟨4, true, true, false, none⟩])
    (by decide) (by decide) (by decide)
    (by
      unfold runOnModule
      rw [if_neg (by decide), if_pos (by decide)])
  exact h.1

open Randezvous.GDLR in
/--
C5 counterexample: the claim says decoys are inserted iterating the objects
of each storage class in their original (pre-shuffle) encounter order, but
`runOnModule` shuffles the class vectors in place (lines 511-513) *before*
the insertion loops of lines 567-575, so the anchors are visited in shuffled
order.  With two rodata globals and the order-swapping shuffle, the anchor
(invocation) order differs from the original encounter order.
-/
theorem gdlr_insertion_order_counterexample :
    ∃ out, runOnModule ⟨true, false, 12, 0, 0⟩ 4 (fun _ => 0) [1, 0] [] []
        [] [] [] []
        [⟨4, true, true, false, none⟩, ⟨8, true, true, false, none⟩] =
      some out ∧
      out.groupsRodata.map (fun g => g.1) ≠
        [⟨4, true, true, false, none⟩, ⟨8, true, true, false, none⟩] := by
  refine ⟨runGDLRBody ⟨true, false, 12, 0, 0⟩ 4 (fun _ => 0) [1, 0] [] []
    [] [] [] []
    [⟨4, true, true, false, none⟩, ⟨8, true, true, false, none⟩], ?_, ?_⟩
  · unfold runOnModule
    rw [if_neg (by decide), if_pos (by decide)]
  · show ((insertForClass false 4
        ((applyPerm [1, 0] (List.filter isRodataGV
            [⟨4, true, true, false, none⟩, ⟨8, true, true, false, none⟩])).zip
          (shares (mkWeights []
              (applyPerm [1, 0] (List.filter isRodataGV
                [⟨4, true, true, false, none⟩,
                 ⟨8, true, true, false, none⟩])).length)
            ((12 - sumSizes (List.filter isRodataGV
              [⟨4, true, true, false, none⟩,
               ⟨8, true, true, false, none⟩])) / 4)))
        ⟨(fun _ => 0), 0, [], [], []⟩).1.map (fun g => g.1)) ≠
      [⟨4, true, true, false, none⟩, ⟨8, true, true, false, none⟩]
    obtain ⟨hA, -, -, -, -, -⟩ := insertForClass_spec false 4
      ((applyPerm [1, 0] (List.filter isRodataGV
          [⟨4, true, true, false, none⟩, ⟨8, true, true, false, none⟩])).zip
        (shares (mkWeights []
            (applyPerm [1, 0] (List.filter isRodataGV
              [⟨4, true, true, false, none⟩,
               ⟨8, true, true, false, none⟩])).length)
          ((12 - sumSizes (List.filter isRodataGV
            [⟨4, true, true, false, none⟩,
             ⟨8, true, true, false, none⟩])) / 4)))
      ⟨(fun _ => 0), 0, [], [], []⟩
    rw [hA]
    decide

open Randezvous.GDLR in
/--
C5 (amended): when GDLR is enabled and each class's footprint is within its
capacity, decoy objects are inserted immediately before each real global
object, iterating the objects of each storage class in their *shuffled*
(post-shuffle) order, with each object's assigned share grouped into
32-byte-aligned garbage array objects of 32/pointer-size entries each plus
at most one undersized, pointer-aligned remainder array.
-/
theorem gdlr_insertion_layout_spec (cfg : GDLRConfig) (ptrSize : Nat)
    (rng : Nat → Nat) (permR permD permB drawsR drawsD drawsB tb : List Nat)
    (gvs : List GVRec) (out : GDLRRun)
    (hrun : runOnModule cfg ptrSize rng permR permD permB drawsR drawsD
      drawsB tb gvs = some out) :
    (out.groupsRodata.map (fun g => g.1) =
      applyPerm permR (gvs.filter isRodataGV)) ∧
    (out.groupsData.map (fun g => g.1) =
      applyPerm permD (gvs.filter isDataGV)) ∧
    (out.groupsBss.map (fun g => g.1) =
      applyPerm permB (gvs.filter isBssGV)) ∧
    (out.rodataEntries = classLayout out.groupsRodata) ∧
    (out.dataEntries = classLayout out.groupsData) ∧
    (out.bssEntries = classLayout out.groupsBss) ∧
    (∀ g ∈ out.groupsRodata ++ out.groupsData ++ out.groupsBss, ∃ q rq,
      g.2.2.map (fun ob => (ob.sizeBytes, ob.align, ob.numEntries)) =
        List.replicate q (32, 32, 32 / ptrSize) ++
          (if rq = 0 then [] else [(rq, ptrSize, rq / ptrSize)]) ∧
      rq < 32 ∧ g.2.1 * ptrSize = q * 32 + rq) := by
  unfold runOnModule at hrun
  split at hrun
  · exact absurd hrun (by simp)
  · split at hrun
    · have hout := Option.some.inj hrun
      subst hout
      have hclass : ∀ (e : Bool) (classGVs : List GVRec)
          (perm draws : List Nat) (budget : Nat) (st : GDLRState),
          ((insertForClass e ptrSize ((applyPerm perm classGVs).zip
              (shares (mkWeights draws (applyPerm perm classGVs).length)
                budget)) st).1.map (fun g => g.1)) =
            applyPerm perm classGVs := by
        intro e classGVs perm draws budget st
        obtain ⟨hA, -, -, -, -, -⟩ := insertForClass_spec e ptrSize
          ((applyPerm perm classGVs).zip
            (shares (mkWeights draws (applyPerm perm classGVs).length)
              budget)) st
        rw [hA]
        exact List.map_fst_zip _ _
          (by rw [shares_length, mkWeights_length])
      refine ⟨hclass _ _ _ _ _ _, hclass _ _ _ _ _ _, hclass _ _ _ _ _ _,
        rfl, rfl, rfl, ?_⟩
      intro g hg
      rcases List.mem_append.mp hg with hg2 | hg2
      · rcases List.mem_append.mp hg2 with hg3 | hg3
        · obtain ⟨-, -, -, -, hD, -⟩ := insertForClass_spec cfg.enableGRBG
            ptrSize ((applyPerm permR (gvs.filter isRodataGV)).zip
              (shares (mkWeights drawsR
                  (applyPerm permR (gvs.filter isRodataGV)).length)
                ((cfg.maxRodataSize -
                  sumSizes (gvs.filter isRodataGV)) / ptrSize)))
            ⟨rng, 0, tb, tb, []⟩
          exact hD g hg3
        · obtain ⟨-, -, -, -, hD, -⟩ := insertForClass_spec cfg.enableGRBG
            ptrSize ((applyPerm permD (gvs.filter isDataGV)).zip
              (shares (mkWeights drawsD
                  (applyPerm permD (gvs.filter isDataGV)).length)
                ((cfg.maxDataSize -
                  sumSizes (gvs.filter isDataGV)) / ptrSize)))
            (insertForClass cfg.enableGRBG ptrSize
              ((applyPerm permR (gvs.filter isRodataGV)).zip
                (shares (mkWeights drawsR
                    (applyPerm permR (gvs.filter isRodataGV)).length)
                  ((cfg.maxRodataSize -
                    sumSizes (gvs.filter isRodataGV)) / ptrSize)))
              ⟨rng, 0, tb, tb, []⟩).2
          exact hD g hg3
      · obtain ⟨-, -, -, -, hD, -⟩ := insertForClass_spec cfg.enableGRBG
          ptrSize ((applyPerm permB (gvs.filter isBssGV)).zip
            (shares (mkWeights drawsB
                (applyPerm permB (gvs.filter isBssGV)).length)
              ((cfg.maxBssSize - sumSizes (gvs.filter isBssGV)) / ptrSize)))
          (insertForClass cfg.enableGRBG ptrSize
            ((applyPerm permD (gvs.filter isDataGV)).zip
              (shares (mkWeights drawsD
                  (applyPerm permD (gvs.filter isDataGV)).length)
                ((cfg.maxDataSize -
                  sumSizes (gvs.filter isDataGV)) / ptrSize)))
            (insertForClass cfg.enableGRBG ptrSize
              ((applyPerm permR (gvs.filter isRodataGV)).zip
                (shares (mkWeights drawsR
                    (applyPerm permR (gvs.filter isRodataGV)).length)
                  ((cfg.maxRodataSize -
                    sumSizes (gvs.filter isRodataGV)) / ptrSize)))
              ⟨rng, 0, tb, tb, []⟩).2).2
        exact hD g hg2
    · exact absurd hrun (by simp)

open Randezvous.GDLR in
/-- Witness for C5 (amended) at the swap-shuffled two-global module. -/
theorem gdlr_insertion_layout_spec_witness :
    (runGDLRBody ⟨true, false, 12, 0, 0⟩ 4 (fun _ => 0) [1, 0] [] [] [] []
        [] [] [⟨4, true, true, false, none⟩,
               ⟨8, true, true, false, none⟩]).groupsRodata.map
      (fun g => g.1) =
    applyPerm [1, 0] (List.filter isRodataGV
      [⟨4, true, true, false, none⟩, ⟨8, true, true, false, none⟩]) := by
  have h := gdlr_insertion_layout_spec ⟨true, false, 12, 0, 0⟩ 4
    (fun _ => 0) [1, 0] [] [] [] [] [] []
    [⟨4, true, true, false, none⟩, ⟨8, true, true, false, none⟩]
    (runGDLRBody ⟨true, false, 12, 0, 0⟩ 4 (fun _ => 0) [1, 0] [] [] [] []
      [] [] [⟨4, true, true, false, none⟩, ⟨8, true, true, false, none⟩])
    (by
      unfold runOnModule
      rw [if_neg (by decide), if_pos (by decide)])
  exact h.1

open Randezvous.GDLR in
/--
C6: during one GDLR run, no trap block is etched more than once — the etched
pool is a duplicate-free prefix of the initial pool, each etched block is
removed from the unetched pool at etch time, and the trap blocks recorded on
the created garbage objects are exactly that prefix — and if the pool is
exhausted while garbage objects remain to be created, generation still
completes for the full assigned shares (every anchor receives exactly
`share * ptrSize` bytes of garbage) without raising an error.
-/
theorem gdlr_trap_etching (cfg : GDLRConfig) (ptrSize : Nat)
    (rng : Nat → Nat) (permR permD permB drawsR drawsD drawsB tb : List Nat)
    (gvs : List GVRec) (out : GDLRRun) (hnd : tb.Nodup)
    (hrun : runOnModule cfg ptrSize rng permR permD permB drawsR drawsD
      drawsB tb gvs = some out) :
    (∃ k, out.finalState.trapBlocksEtched = tb.take k ∧
          out.finalState.trapBlocksUnetched = tb.drop k ∧
          ((out.groupsRodata ++ out.groupsData ++ out.groupsBss).flatMap
              (fun g => g.2.2)).filterMap GarbageObject.etchedTrap =
            tb.take k) ∧
    out.finalState.trapBlocksEtched.Nodup ∧
    (∀ t ∈ out.finalState.trapBlocksEtched,
      t ∉ out.finalState.trapBlocksUnetched) ∧
    (∀ g ∈ out.groupsRodata ++ out.groupsData ++ out.groupsBss,
      (g.2.2.map GarbageObject.sizeBytes).sum = g.2.1 * ptrSize) := by
  unfold runOnModule at hrun
  split at hrun
  · exact absurd hrun (by simp)
  · split at hrun
    · have hout := Option.some.inj hrun
      subst hout
      have hgR : (runGDLRBody cfg ptrSize rng permR permD permB drawsR
          drawsD drawsB tb gvs).groupsRodata =
        (insertForClass cfg.enableGRBG ptrSize
          ((applyPerm permR (gvs.filter isRodataGV)).zip
            (shares (mkWeights drawsR
                (applyPerm permR (gvs.filter isRodataGV)).length)
              ((cfg.maxRodataSize -
                sumSizes (gvs.filter isRodataGV)) / ptrSize)))
          ⟨rng, 0, tb, tb, []⟩).1 := rfl
      have hgD : (runGDLRBody cfg ptrSize rng permR permD permB drawsR
          drawsD drawsB tb gvs).groupsData =
        (insertForClass cfg.enableGRBG ptrSize
          ((applyPerm permD (gvs.filter isDataGV)).zip
            (shares (mkWeights drawsD
                (applyPerm permD (gvs.filter isDataGV)).length)
              ((cfg.maxDataSize -
                sumSizes (gvs.filter isDataGV)) / ptrSize)))
          (insertForClass cfg.enableGRBG ptrSize
            ((applyPerm permR (gvs.filter isRodataGV)).zip
              (shares (mkWeights drawsR
                  (applyPerm permR (gvs.filter isRodataGV)).length)
                ((cfg.maxRodataSize -
                  sumSizes (gvs.filter isRodataGV)) / ptrSize)))
            ⟨rng, 0, tb, tb, []⟩).2).1 := rfl
      have hgB : (runGDLRBody cfg ptrSize rng permR permD permB drawsR
          drawsD drawsB tb gvs).groupsBss =
        (insertForClass cfg.enableGRBG ptrSize
          ((applyPerm permB (gvs.filter isBssGV)).zip
            (shares (mkWeights drawsB
                (applyPerm permB (gvs.filter isBssGV)).length)
              ((cfg.maxBssSize - sumSizes (gvs.filter isBssGV)) / ptrSize)))
          (insertForClass cfg.enableGRBG ptrSize
            ((applyPerm permD (gvs.filter isDataGV)).zip
              (shares (mkWeights drawsD
                  (applyPerm permD (gvs.filter isDataGV)).length)
                ((cfg.maxDataSize -
                  sumSizes (gvs.filter isDataGV)) / ptrSize)))
            (insertForClass cfg.enableGRBG ptrSize
              ((applyPerm permR (gvs.filter isRodataGV)).zip
                (shares (mkWeights drawsR
                    (applyPerm permR (gvs.filter isRodataGV)).length)
                  ((cfg.maxRodataSize -
                    sumSizes (gvs.filter isRodataGV)) / ptrSize)))
              ⟨rng, 0, tb, tb, []⟩).2).2).1 := rfl
      have hfs : (runGDLRBody cfg ptrSize rng permR permD permB drawsR
          drawsD drawsB tb gvs).finalState =
        (insertForClass cfg.enableGRBG ptrSize
          ((applyPerm permB (gvs.filter isBssGV)).zip
            (shares (mkWeights drawsB
                (applyPerm permB (gvs.filter isBssGV)).length)
              ((cfg.maxBssSize - sumSizes (gvs.filter isBssGV)) / ptrSize)))
          (insertForClass cfg.enableGRBG ptrSize
            ((applyPerm permD (gvs.filter isDataGV)).zip
              (shares (mkWeights drawsD
                  (applyPerm permD (gvs.filter isDataGV)).length)
                ((cfg.maxDataSize -
                  sumSizes (gvs.filter isDataGV)) / ptrSize)))
            (insertForClass cfg.enableGRBG ptrSize
              ((applyPerm permR (gvs.filter isRodataGV)).zip
                (shares (mkWeights drawsR
                    (applyPerm permR (gvs.filter isRodataGV)).length)
                  ((cfg.maxRodataSize -
                    sumSizes (gvs.filter isRodataGV)) / ptrSize)))
              ⟨rng, 0, tb, tb, []⟩).2).2).2 := rfl
      rw [hgR, hgD, hgB, hfs]
      set clsR := (applyPerm permR (gvs.filter isRodataGV)).zip
        (shares (mkWeights drawsR
            (applyPerm permR (gvs.filter isRodataGV)).length)
          ((cfg.maxRodataSize - sumSizes (gvs.filter isRodataGV)) /
            ptrSize)) with hclsR
      set clsD := (applyPerm permD (gvs.filter isDataGV)).zip
        (shares (mkWeights drawsD
            (applyPerm permD (gvs.filter isDataGV)).length)
          ((cfg.maxDataSize - sumSizes (gvs.filter isDataGV)) /
            ptrSize)) with hclsD
      set clsB := (applyPerm permB (gvs.filter isBssGV)).zip
        (shares (mkWeights drawsB
            (applyPerm permB (gvs.filter isBssGV)).length)
          ((cfg.maxBssSize - sumSizes (gvs.filter isBssGV)) /
            ptrSize)) with hclsB
      set st0 : GDLRState := ⟨rng, 0, tb, tb, []⟩ with hst0
      obtain ⟨-, -, -, ⟨k1, u1, e1, f1⟩, -, ER⟩ :=
        insertForClass_spec cfg.enableGRBG ptrSize clsR st0
      obtain ⟨-, -, -, ⟨k2, u2, e2, f2⟩, -, ED⟩ :=
        insertForClass_spec cfg.enableGRBG ptrSize clsD
          (insertForClass cfg.enableGRBG ptrSize clsR st0).2
      obtain ⟨-, -, -, ⟨k3, u3, e3, f3⟩, -, EB⟩ :=
        insertForClass_spec cfg.enableGRBG ptrSize clsB
          (insertForClass cfg.enableGRBG ptrSize clsD
            (insertForClass cfg.enableGRBG ptrSize clsR st0).2).2
      have he0 : st0.trapBlocksEtched = [] := rfl
      rw [he0, List.nil_append] at e1
      rw [u1] at u2 f2
      rw [u1, e1] at e2
      rw [List.drop_drop] at u2
      rw [← List.take_add] at e2
      rw [u2] at u3 f3
      rw [u2, e2] at e3
      rw [List.drop_drop] at u3
      rw [← List.take_add] at e3
      refine ⟨⟨k1 + k2 + k3, e3, u3, ?_⟩, ?_, ?_, ?_⟩
      · rw [List.flatMap_append, List.flatMap_append,
          List.filterMap_append, List.filterMap_append, f1, f2, f3,
          ← List.take_add, ← List.take_add]
      · rw [e3]
        exact hnd.sublist (List.take_sublist _ _)
      · rw [e3, u3]
        intro t ht
        have hsplit := List.take_append_drop (k1 + k2 + k3) tb
        have hnd2 : (tb.take (k1 + k2 + k3) ++
            tb.drop (k1 + k2 + k3)).Nodup := by
          rw [hsplit]
          exact hnd
        exact (List.nodup_append.mp hnd2).2.2 ht
      · intro g hg
        rcases List.mem_append.mp hg with hg2 | hg2
        · rcases List.mem_append.mp hg2 with hg3 | hg3
          · exact ER g hg3
          · exact ED g hg3
        · exact EB g hg2
    · exact absurd hrun (by simp)

open Randezvous.GDLR in
/-- Witness for C6 at a concrete module with a two-element trap pool. -/
theorem gdlr_trap_etching_witness :
    (runGDLRBody ⟨true, false, 8, 0, 0⟩ 4 (fun _ => 0) [0] [] [] [] [] []
      [7, 9] [⟨4, true, true, false, none⟩]).finalState.trapBlocksEtched.Nodup := by
  have h := gdlr_trap_etching ⟨true, false, 8, 0, 0⟩ 4 (fun _ => 0) [0] []
    [] [] [] [] [7, 9] [⟨4, true, true, false, none⟩]
    (runGDLRBody ⟨true, false, 8, 0, 0⟩ 4 (fun _ => 0) [0] [] [] [] [] []
      [7, 9] [⟨4, true, true, false, none⟩])
    (by decide)
    (by
      unfold runOnModule
      rw [if_neg (by decide), if_pos (by decide)])
  exact h.2.1

open Randezvous.CDLA in
/--
C3: for every basic block with a layout predecessor already classified
leakable (present in `LeakableMBBs`), `determineLeakability` returns true;
consequently, since runOnModule visits each function's blocks in layout
order and records each leakable block before visiting the next, a chain of
layout-consecutive non-trap blocks in which the first is directly leakable
(through a non-last leaky call) ends the analysis with every block of the
chain marked leakable.
-/
theorem determineLeakability_propagates (blocks : List MBlock)
    (fIdx i : Nat) (lk : List (Nat × Nat)) (F : CFunc)
    (hmem : (fIdx, i) ∈ lk)
    (hAT : F.reallyAddressTaken = false)
    (hnt : ∀ b ∈ F.blocks, b.isTrap = false)
    (hb0 : ∀ b, F.blocks[0]? = some b → b.hasNonLastLeakyCall = true) :
    determineLeakability blocks fIdx (i + 1) lk = true ∧
    (∀ j, j < F.blocks.length → (0, j) ∈ (runOnModuleCDLA [F]).2) := by
  constructor
  · unfold determineLeakability
    simp [hmem]
  · intro j hj
    have hrun : (runOnModuleCDLA [F]).2 =
        (retAddrLoop 0 F.blocks (List.range F.blocks.length)
          ({ numFuncs := 1,
             numBBs := countNonTrap F.blocks,
             codeSize := sumNonTrap F.blocks,
             codeSizeLeakable := 0, codeSizeLeakableViaFuncPtr := 0,
             codeSizeLeakableViaRetAddr := 0, numFuncsLeakable := 0,
             numBBsLeakable := 0 }, [])).2 := by
      show (processFunc 0 F (⟨0, 0, 0, 0, 0, 0, 0, 0⟩, [])).2 = _
      unfold processFunc
      rw [hAT]
      simp
    rw [hrun, List.range_eq_range']
    exact retAddrLoop_chain 0 F.blocks hnt hb0 F.blocks.length 0 _
      (by omega) (by intro j' hj'; omega) j (by omega)

open Randezvous.CDLA in
/-- Witness for C3 at a three-block chain whose first block alone is
directly leakable: the last block ends up in `LeakableMBBs`. -/
theorem determineLeakability_propagates_witness :
    determineLeakability [⟨2, false, false, true⟩, ⟨2, false, false, false⟩,
      ⟨2, false, false, false⟩] 0 1 [(0, 0)] = true ∧
    (0, 2) ∈ (runOnModuleCDLA [⟨false,
      [⟨2, false, false, true⟩, ⟨2, false, false, false⟩,
       ⟨2, false, false, false⟩]⟩]).2 := by
  have h := determineLeakability_propagates
    [⟨2, false, false, true⟩, ⟨2, false, false, false⟩,
     ⟨2, false, false, false⟩] 0 0 [(0, 0)]
    ⟨false, [⟨2, false, false, true⟩, ⟨2, false, false, false⟩,
      ⟨2, false, false, false⟩]⟩
    (by decide) rfl
    (by
      intro b hb
      simp only [List.mem_cons, List.not_mem_nil, or_false] at hb
      rcases hb with h | h | h <;> subst h <;> rfl)
    (by intro b hb; cases hb; rfl)
  exact ⟨h.1, h.2 2 (by decide)⟩


/-- C10: CDLA's `runOnModule` excludes Randezvous trap blocks from all its
statistics: zeroing the sizes of all trap blocks changes neither any of the
eight statistics nor the leakable set (so trap blocks contribute nothing to
any size counter), the block count and the total code size are exactly the
count and total size of the non-trap blocks, and every id recorded in the
leakable-block set denotes an existing non-trap block — even when its
containing function is address-taken. -/
theorem cdla_trap_blocks_excluded (M : List Randezvous.CDLA.CFunc) :
    Randezvous.CDLA.runOnModuleCDLA (Randezvous.CDLA.zeroTrapSizes M) =
      Randezvous.CDLA.runOnModuleCDLA M ∧
    (Randezvous.CDLA.runOnModuleCDLA M).1.numBBs =
      (M.map (fun F => Randezvous.CDLA.countNonTrap F.blocks)).sum ∧
    (Randezvous.CDLA.runOnModuleCDLA M).1.codeSize =
      (M.map (fun F => Randezvous.CDLA.sumNonTrap F.blocks)).sum ∧
    (∀ id ∈ (Randezvous.CDLA.runOnModuleCDLA M).2,
      ∃ F b, M[id.1]? = some F ∧ F.blocks[id.2]? = some b ∧
        b.isTrap = false) := by
  refine ⟨?_, ?_, ?_, ?_⟩
  · show Randezvous.CDLA.goFuncs 0 (M.map fun F =>
        { F with blocks := F.blocks.map Randezvous.CDLA.ztb })
        (⟨0, 0, 0, 0, 0, 0, 0, 0⟩, [])
      = Randezvous.CDLA.goFuncs 0 M (⟨0, 0, 0, 0, 0, 0, 0, 0⟩, [])
    exact Randezvous.CDLA.goFuncs_ztb M 0 _
  · have := (Randezvous.CDLA.goFuncs_counters M 0
      (⟨0, 0, 0, 0, 0, 0, 0, 0⟩, [])).1
    simpa [Randezvous.CDLA.runOnModuleCDLA] using this
  · have := (Randezvous.CDLA.goFuncs_counters M 0
      (⟨0, 0, 0, 0, 0, 0, 0, 0⟩, [])).2
    simpa [Randezvous.CDLA.runOnModuleCDLA] using this
  · refine Randezvous.CDLA.goFuncs_set_inv
      (fun id => ∃ F b, M[id.1]? = some F ∧ F.blocks[id.2]? = some b ∧
        b.isTrap = false) M 0 ?_ _ (by intro id h; cases h)
    intro j F' hj bIdx b hb hnt
    exact ⟨F', b, by simpa using hj, hb, hnt⟩

/-- Concrete instance of C10: a module with one address-taken function made
of a leaky non-trap block followed by a trap block keeps its statistics
unchanged when the trap block's size is zeroed, counts a single block, sums
only the non-trap size, and never records the trap block as leakable. -/
theorem cdla_trap_blocks_excluded_witness :
    (Randezvous.CDLA.runOnModuleCDLA
        (Randezvous.CDLA.zeroTrapSizes
          [⟨true, [⟨6, false, true, true⟩, ⟨4, true, false, false⟩]⟩]) =
      Randezvous.CDLA.runOnModuleCDLA
        [⟨true, [⟨6, false, true, true⟩, ⟨4, true, false, false⟩]⟩]) ∧
    (Randezvous.CDLA.runOnModuleCDLA
        [⟨true, [⟨6, false, true, true⟩, ⟨4, true, false, false⟩]⟩]).1.numBBs
      = 1 ∧
    (Randezvous.CDLA.runOnModuleCDLA
        [⟨true, [⟨6, false, true, true⟩, ⟨4, true, false, false⟩]⟩]).1.codeSize
      = 6 ∧
    (0, 1) ∉ (Randezvous.CDLA.runOnModuleCDLA
        [⟨true, [⟨6, false, true, true⟩, ⟨4, true, false, false⟩]⟩]).2 := by
  obtain ⟨h1, h2, h3, h4⟩ := cdla_trap_blocks_excluded
    [⟨true, [⟨6, false, true, true⟩, ⟨4, true, false, false⟩]⟩]
  refine ⟨h1, by rw [h2]; decide, by rw [h3]; decide, ?_⟩
  intro hmem
  obtain ⟨F, b, hF, hb, hnt⟩ := h4 (0, 1) hmem
  simp only [List.getElem?_cons_zero, Option.some.injEq] at hF
  subst hF
  simp only [List.getElem?_cons_succ, List.getElem?_cons_zero,
    Option.some.injEq] at hb
  subst hb
  exact absurd hnt (by decide)


namespace Randezvous

namespace IRAT

/-- The kinds of values and users distinguished by the `dyn_cast` chain of
`isReallyAddressTaken` (ARMRandezvousCDLA.cpp lines 105-175).  A
`constExpr` carries whether it is a compare; a `globalVariable` carries its
name (checked against the two LLVM metadata names); a `callInst` carries
the ids of the values it passes as call arguments (`CI->hasArgument(V)`).
-/
inductive VKind where
  | phiNode : VKind
  | globalAlias : VKind
  | blockAddress : VKind
  | constExpr : Bool → VKind
  | globalVariable : String → VKind
  | otherConstant : VKind
  | storeInst : VKind
  | castInst : VKind
  | selectInst : VKind
  | cmpInst : VKind
  | callInst : List Nat → VKind
  | otherUser : VKind
deriving DecidableEq, Repr

/-- A module's value graph: per value id, its kind and its users. -/
structure VEnv where
  kinds : List VKind
  users : List (List Nat)
deriving Repr

def kindOf (env : VEnv) (v : Nat) : VKind :=
  env.kinds.getD v .otherUser

def usersOf (env : VEnv) (v : Nat) : List Nat :=
  env.users.getD v []

/-- One use of `f` counts toward `Function::hasAddressTaken` unless it is
the callee operand of a call instruction that does not also pass `f` as an
argument. -/
def useIsAddressTaken (env : VEnv) (f u : Nat) : Bool :=
  match kindOf env u with
  | .callInst args => decide (f ∈ args)
  | _ => true

/-- `F.hasAddressTaken()` (line 107): some use of `f` is not a direct-call
callee use. -/
def hasAddressTaken (env : VEnv) (f : Nat) : Bool :=
  (usersOf env f).any (useIsAddressTaken env f)

/-- Processing one user `U` of the popped value `V` (the if-else chain of
lines 122-170): `none` models `return true`; `some (wl, phis)` the updated
worklist (top at the head, matching the vector's push_back/pop_back LIFO
order) and the set of PHI nodes already followed. -/
def processUser (env : VEnv) (v u : Nat) (st : List Nat × List Nat) :
    Option (List Nat × List Nat) :=
  match kindOf env u with
  | .phiNode =>
      if u ∈ st.2 then some st else some (u :: st.1, u :: st.2)
  | .globalAlias => some (u :: st.1, st.2)
  | .blockAddress => some st
  | .constExpr isCompare =>
      if isCompare then some st else some (u :: st.1, st.2)
  | .globalVariable name =>
      if name ≠ "llvm.used" ∧ name ≠ "llvm.compiler.used" then none
      else some st
  | .otherConstant => some (u :: st.1, st.2)
  | .storeInst => none
  | .castInst => some (u :: st.1, st.2)
  | .selectInst => some (u :: st.1, st.2)
  | .cmpInst => some st
  | .callInst args => if v ∈ args then none else some st
  | .otherUser => some st

/-- The `for (const User * U : V->users())` loop of line 122, short-cutting
on the first escaping use. -/
def processUsers (env : VEnv) (v : Nat) :
    List Nat → List Nat × List Nat → Option (List Nat × List Nat)
  | [], st => some st
  | u :: us, st =>
    match processUser env v u st with
    | none => none
    | some st1 => processUsers env v us st1

/-- The worklist loop of lines 115-172, fuel-indexed: `none` when the fuel
runs out before the worklist empties. -/
def iratLoop (env : VEnv) : Nat → List Nat → List Nat → Option Bool
  | 0, _, _ => none
  | _ + 1, [], _ => some false
  | fuel + 1, v :: wl, phis =>
    match processUsers env v (usersOf env v) (wl, phis) with
    | none => some true
    | some st => iratLoop env fuel st.1 st.2

/-- `isReallyAddressTaken` (lines 105-175): an early `false` when LLVM does
not consider the address taken at all, otherwise the worklist walk of the
use chain starting from the function itself. -/
def isReallyAddressTaken (env : VEnv) (fuel f : Nat) : Option Bool :=
  if hasAddressTaken env f = true then iratLoop env fuel [f] []
  else some false

/-- The user kinds the loop follows into the worklist without deciding
(PHI nodes are handled separately because of the visited set). -/
def followKind : VKind → Bool
  | .globalAlias => true
  | .constExpr isCompare => !isCompare
  | .otherConstant => true
  | .castInst => true
  | .selectInst => true
  | _ => false

/-- The uses on which the loop returns `true` immediately: a store, a
non-metadata global variable, a call passing the value as an argument. -/
def escUser (env : VEnv) (v u : Nat) : Bool :=
  match kindOf env u with
  | .storeInst => true
  | .globalVariable name =>
      decide (name ≠ "llvm.used" ∧ name ≠ "llvm.compiler.used")
  | .callInst args => decide (v ∈ args)
  | _ => false

/-- An escaping use chain from `v`: either a directly escaping use, or a
step through a followed user; a PHI step may not re-enter `phis`. -/
inductive EscAvoid (env : VEnv) (phis : List Nat) : Nat → Prop where
  | store {v u : Nat} : u ∈ usersOf env v → kindOf env u = .storeInst →
      EscAvoid env phis v
  | gvar {v u : Nat} {name : String} : u ∈ usersOf env v →
      kindOf env u = .globalVariable name → name ≠ "llvm.used" →
      name ≠ "llvm.compiler.used" → EscAvoid env phis v
  | callArg {v u : Nat} {args : List Nat} : u ∈ usersOf env v →
      kindOf env u = .callInst args → v ∈ args → EscAvoid env phis v
  | phiStep {v u : Nat} : u ∈ usersOf env v → kindOf env u = .phiNode →
      u ∉ phis → EscAvoid env phis u → EscAvoid env phis v
  | followStep {v u : Nat} : u ∈ usersOf env v →
      followKind (kindOf env u) = true → EscAvoid env phis u →
      EscAvoid env phis v

theorem processUsers_cons_none (env : VEnv) (v u : Nat) (us : List Nat)
    (st : List Nat × List Nat) (h : processUser env v u st = none) :
    processUsers env v (u :: us) st = none := by
  simp only [processUsers, h]

theorem processUsers_cons_some (env : VEnv) (v u : Nat) (us : List Nat)
    (st st1 : List Nat × List Nat) (h : processUser env v u st = some st1) :
    processUsers env v (u :: us) st = processUsers env v us st1 := by
  simp only [processUsers, h]

/-- The three possible updates a non-escaping user makes to the state. -/
theorem processUser_shape (env : VEnv) (v u : Nat)
    (st st1 : List Nat × List Nat) (h : processUser env v u st = some st1) :
    st1 = st ∨ st1 = (u :: st.1, st.2) ∨
      (st1 = (u :: st.1, u :: st.2) ∧ u ∉ st.2) := by
  unfold processUser at h
  cases hk : kindOf env u <;> simp only [hk] at h
  case phiNode =>
    by_cases hm : u ∈ st.2
    · rw [if_pos hm] at h
      exact Or.inl (Option.some.inj h).symm
    · rw [if_neg hm] at h
      exact Or.inr (Or.inr ⟨(Option.some.inj h).symm, hm⟩)
  case globalAlias => exact Or.inr (Or.inl (Option.some.inj h).symm)
  case blockAddress => exact Or.inl (Option.some.inj h).symm
  case constExpr isCompare =>
    cases isCompare
    · rw [if_neg (by simp)] at h
      exact Or.inr (Or.inl (Option.some.inj h).symm)
    · rw [if_pos rfl] at h
      exact Or.inl (Option.some.inj h).symm
  case globalVariable name =>
    split at h
    · exact absurd h (by simp)
    · exact Or.inl (Option.some.inj h).symm
  case otherConstant => exact Or.inr (Or.inl (Option.some.inj h).symm)
  case storeInst => exact absurd h (by simp)
  case castInst => exact Or.inr (Or.inl (Option.some.inj h).symm)
  case selectInst => exact Or.inr (Or.inl (Option.some.inj h).symm)
  case cmpInst => exact Or.inl (Option.some.inj h).symm
  case callInst args =>
    split at h
    · exact absurd h (by simp)
    · exact Or.inl (Option.some.inj h).symm
  case otherUser => exact Or.inl (Option.some.inj h).symm

/-- A followed (non-PHI) user is pushed onto the worklist. -/
theorem processUser_follow (env : VEnv) (v u : Nat)
    (st st1 : List Nat × List Nat) (h : processUser env v u st = some st1)
    (hf : followKind (kindOf env u) = true) : st1 = (u :: st.1, st.2) := by
  unfold processUser at h
  cases hk : kindOf env u <;> rw [hk] at hf <;>
    simp only [followKind, Bool.false_eq_true] at hf <;>
    simp only [hk] at h
  case globalAlias => exact (Option.some.inj h).symm
  case constExpr isCompare =>
    cases isCompare
    · rw [if_neg (by simp)] at h
      exact (Option.some.inj h).symm
    · exact absurd hf (by simp)
  case otherConstant => exact (Option.some.inj h).symm
  case castInst => exact (Option.some.inj h).symm
  case selectInst => exact (Option.some.inj h).symm

/-- A PHI user not yet followed is pushed and recorded. -/
theorem processUser_phi (env : VEnv) (v u : Nat)
    (st st1 : List Nat × List Nat) (h : processUser env v u st = some st1)
    (hk : kindOf env u = VKind.phiNode) (hm : u ∉ st.2) :
    st1 = (u :: st.1, u :: st.2) := by
  unfold processUser at h
  rw [hk] at h
  simp only [] at h
  rw [if_neg hm] at h
  exact (Option.some.inj h).symm

/-- An escaping user makes the loop return `true` at once. -/
theorem processUser_none_of_esc (env : VEnv) (v u : Nat)
    (st : List Nat × List Nat) (h : escUser env v u = true) :
    processUser env v u st = none := by
  unfold escUser at h
  unfold processUser
  cases hk : kindOf env u <;> rw [hk] at h <;> simp only [] at h ⊢ <;>
    try simp only [Bool.false_eq_true] at h
  case globalVariable name => rw [if_pos (of_decide_eq_true h)]
  case callInst args => rw [if_pos (of_decide_eq_true h)]

theorem processUser_some_of_not_esc (env : VEnv) (v u : Nat)
    (st : List Nat × List Nat) (h : escUser env v u = false) :
    ∃ st1, processUser env v u st = some st1 := by
  unfold escUser at h
  unfold processUser
  cases hk : kindOf env u <;> rw [hk] at h <;> simp only [] at h ⊢ <;>
    try simp only [Bool.true_eq_false] at h
  case phiNode =>
    by_cases hm : u ∈ st.2
    · exact ⟨st, if_pos hm⟩
    · exact ⟨_, if_neg hm⟩
  case globalAlias => exact ⟨_, rfl⟩
  case blockAddress => exact ⟨st, rfl⟩
  case constExpr isCompare =>
    cases isCompare
    · exact ⟨_, if_neg (by simp)⟩
    · exact ⟨st, if_pos rfl⟩
  case globalVariable name => exact ⟨st, if_neg (of_decide_eq_false h)⟩
  case otherConstant => exact ⟨_, rfl⟩
  case castInst => exact ⟨_, rfl⟩
  case selectInst => exact ⟨_, rfl⟩
  case cmpInst => exact ⟨st, rfl⟩
  case callInst args => exact ⟨st, if_neg (of_decide_eq_false h)⟩
  case otherUser => exact ⟨st, rfl⟩

theorem processUsers_some (env : VEnv) (v : Nat) :
    ∀ (us : List Nat) (st st1 : List Nat × List Nat),
      processUsers env v us st = some st1 →
      (∀ x ∈ st.1, x ∈ st1.1) ∧ (∀ p ∈ st.2, p ∈ st1.2) ∧
      (∀ p ∈ st1.2, p ∈ st.2 ∨ p ∈ st1.1) := by
  intro us
  induction us with
  | nil =>
    intro st st1 h
    obtain rfl := Option.some.inj h
    exact ⟨fun x hx => hx, fun p hp => hp, fun p hp => Or.inl hp⟩
  | cons w us ih =>
    intro st st1 h
    cases hw : processUser env v w st with
    | none =>
      rw [processUsers_cons_none env v w us st hw] at h
      exact absurd h (by simp)
    | some stm =>
      rw [processUsers_cons_some env v w us st stm hw] at h
      obtain ⟨i1, i2, i3⟩ := ih stm st1 h
      rcases processUser_shape env v w st stm hw with rfl | hsh | ⟨hsh, hwm⟩
      · exact ⟨i1, i2, i3⟩
      · subst hsh
        refine ⟨fun x hx => i1 x (List.mem_cons_of_mem w hx),
          fun p hp => i2 p hp, fun p hp => i3 p hp⟩
      · subst hsh
        refine ⟨fun x hx => i1 x (List.mem_cons_of_mem w hx),
          fun p hp => i2 p (List.mem_cons_of_mem w hp), fun p hp => ?_⟩
        rcases i3 p hp with hin | hin
        · rcases List.mem_cons.mp hin with rfl | hin2
          · exact Or.inr (i1 p (List.mem_cons_self p st.1))
          · exact Or.inl hin2
        · exact Or.inr hin

theorem processUsers_none_of_esc (env : VEnv) (v : Nat) :
    ∀ (us : List Nat) (st : List Nat × List Nat),
      (∃ u, u ∈ us ∧ escUser env v u = true) →
      processUsers env v us st = none := by
  intro us
  induction us with
  | nil =>
    rintro st ⟨u, hu, -⟩
    cases hu
  | cons w us ih =>
    rintro st ⟨u, hu, hesc⟩
    by_cases hw : escUser env v w = true
    · exact processUsers_cons_none env v w us st
        (processUser_none_of_esc env v w st hw)
    · obtain ⟨st1, hst1⟩ := processUser_some_of_not_esc env v w st
        (by simpa using hw)
      rw [processUsers_cons_some env v w us st st1 hst1]
      refine ih st1 ⟨u, ?_, hesc⟩
      rcases List.mem_cons.mp hu with rfl | h
      · exact absurd hesc hw
      · exact h

theorem processUsers_follow_mem (env : VEnv) (v : Nat) :
    ∀ (us : List Nat) (st st1 : List Nat × List Nat),
      processUsers env v us st = some st1 →
      ∀ u, u ∈ us → followKind (kindOf env u) = true → u ∈ st1.1 := by
  intro us
  induction us with
  | nil =>
    intro st st1 h u hu
    cases hu
  | cons w us ih =>
    intro st st1 h u hu hf
    cases hw : processUser env v w st with
    | none =>
      rw [processUsers_cons_none env v w us st hw] at h
      exact absurd h (by simp)
    | some stm =>
      rw [processUsers_cons_some env v w us st stm hw] at h
      rcases List.mem_cons.mp hu with rfl | hmem
      · have hsh := processUser_follow env v u st stm hw hf
        refine (processUsers_some env v us stm st1 h).1 u ?_
        rw [hsh]
        exact List.mem_cons_self u st.1
      · exact ih stm st1 h u hmem hf

theorem processUsers_phi_mem (env : VEnv) (v : Nat) :
    ∀ (us : List Nat) (st st1 : List Nat × List Nat),
      processUsers env v us st = some st1 →
      ∀ u, u ∈ us → kindOf env u = VKind.phiNode → u ∉ st.2 →
        u ∈ st1.1 := by
  intro us
  induction us with
  | nil =>
    intro st st1 h u hu
    cases hu
  | cons w us ih =>
    intro st st1 h u hu hk hnm
    cases hw : processUser env v w st with
    | none =>
      rw [processUsers_cons_none env v w us st hw] at h
      exact absurd h (by simp)
    | some stm =>
      rw [processUsers_cons_some env v w us st stm hw] at h
      rcases List.mem_cons.mp hu with rfl | hmem
      · have hsh := processUser_phi env v u st stm hw hk hnm
        refine (processUsers_some env v us stm st1 h).1 u ?_
        rw [hsh]
        exact List.mem_cons_self u st.1
      · by_cases hin : u ∈ stm.2
        · rcases processUser_shape env v w st stm hw with rfl | hsh | ⟨hsh, hwm⟩
          · exact absurd hin hnm
          · have hin2 : u ∈ st.2 := by rw [hsh] at hin; exact hin
            exact absurd hin2 hnm
          · have hin2 : u ∈ w :: st.2 := by rw [hsh] at hin; exact hin
            rcases List.mem_cons.mp hin2 with rfl | hin3
            · have humem : u ∈ stm.1 := by
                rw [hsh]
                exact List.mem_cons_self u st.1
              exact (processUsers_some env v us stm st1 h).1 u humem
            · exact absurd hin3 hnm
        · exact ih stm st1 h u hmem hk hin

/-- Enlarging the PHI-avoid set either keeps an escape chain intact or
yields a chain from one of the newly avoided PHI nodes. -/
theorem escAvoid_mono (env : VEnv) {phis phis2 : List Nat}
    (_hsub : ∀ p ∈ phis, p ∈ phis2) {x : Nat} (h : EscAvoid env phis x) :
    EscAvoid env phis2 x ∨
      ∃ p, p ∈ phis2 ∧ p ∉ phis ∧ EscAvoid env phis2 p := by
  induction h with
  | store hu hk => exact Or.inl (.store hu hk)
  | gvar hu hk h1 h2 => exact Or.inl (.gvar hu hk h1 h2)
  | callArg hu hk hv => exact Or.inl (.callArg hu hk hv)
  | phiStep hu hk hnm hrec ih =>
    rcases ih with h2 | hw
    · rename_i u
      by_cases hmem : u ∈ phis2
      · exact Or.inr ⟨u, hmem, hnm, h2⟩
      · exact Or.inl (.phiStep hu hk hmem h2)
    · exact Or.inr hw
  | followStep hu hf hrec ih =>
    rcases ih with h2 | hw
    · exact Or.inl (.followStep hu hf h2)
    · exact Or.inr hw

theorem iratLoop_cons (env : VEnv) (n v : Nat) (wl phis : List Nat) :
    iratLoop env (n + 1) (v :: wl) phis =
      match processUsers env v (usersOf env v) (wl, phis) with
      | none => some true
      | some st => iratLoop env n st.1 st.2 := rfl

/-- Soundness of the worklist walk: while an escape chain starts from some
worklist entry (avoiding the PHI nodes already followed), the loop cannot
come back with `false`. -/
theorem iratLoop_sound (env : VEnv) :
    ∀ (fuel : Nat) (wl phis : List Nat),
      (∃ x, x ∈ wl ∧ EscAvoid env phis x) →
      ∀ b, iratLoop env fuel wl phis = some b → b = true := by
  intro fuel
  induction fuel with
  | zero =>
    intro wl phis hwit b hb
    exact absurd hb (by simp [iratLoop])
  | succ n ih =>
    rintro wl phis ⟨x, hx, hesc⟩ b hb
    cases wl with
    | nil => cases hx
    | cons v rest =>
      cases hp : processUsers env v (usersOf env v) (rest, phis) with
      | none =>
        rw [iratLoop_cons, hp] at hb
        have hb2 : (some true : Option Bool) = some b := hb
        exact (Option.some.inj hb2).symm
      | some st1 =>
        rw [iratLoop_cons, hp] at hb
        have hb2 : iratLoop env n st1.1 st1.2 = some b := hb
        obtain ⟨hmWl, hmPh, hnew⟩ :=
          processUsers_some env v (usersOf env v) (rest, phis) st1 hp
        have promote : ∀ y, y ∈ st1.1 → EscAvoid env phis y →
            ∃ z, z ∈ st1.1 ∧ EscAvoid env st1.2 z := by
          intro y hy hey
          rcases escAvoid_mono env hmPh hey with h2 | ⟨p, hp1, hp2, hp3⟩
          · exact ⟨y, hy, h2⟩
          · rcases hnew p hp1 with hin | hin
            · exact absurd hin hp2
            · exact ⟨p, hin, hp3⟩
        rcases List.mem_cons.mp hx with rfl | hxr
        · cases hesc with
          | store hu hk =>
            rw [processUsers_none_of_esc env x (usersOf env x) (rest, phis)
              ⟨_, hu, by simp [escUser, hk]⟩] at hp
            exact absurd hp (by simp)
          | gvar hu hk h1 h2 =>
            rw [processUsers_none_of_esc env x (usersOf env x) (rest, phis)
              ⟨_, hu, by simp [escUser, hk, h1, h2]⟩] at hp
            exact absurd hp (by simp)
          | callArg hu hk hv =>
            rw [processUsers_none_of_esc env x (usersOf env x) (rest, phis)
              ⟨_, hu, by simp [escUser, hk, hv]⟩] at hp
            exact absurd hp (by simp)
          | phiStep hu hk hnm hesc2 =>
            rename_i u
            have hu2 : u ∈ st1.1 :=
              processUsers_phi_mem env x (usersOf env x) (rest, phis) st1 hp
                u hu hk hnm
            exact ih st1.1 st1.2 (promote u hu2 hesc2) b hb2
          | followStep hu hf hesc2 =>
            rename_i u
            have hu2 : u ∈ st1.1 :=
              processUsers_follow_mem env x (usersOf env x) (rest, phis) st1
                hp u hu hf
            exact ih st1.1 st1.2 (promote u hu2 hesc2) b hb2
        · exact ih st1.1 st1.2 (promote x (hmWl x hxr) hesc) b hb2

/-- An escape chain forces LLVM's own address-taken check to fire. -/
theorem escAvoid_hasAddressTaken (env : VEnv) (f : Nat)
    (h : EscAvoid env [] f) : hasAddressTaken env f = true := by
  cases h with
  | store hu hk =>
    exact List.any_eq_true.mpr ⟨_, hu, by simp [useIsAddressTaken, hk]⟩
  | gvar hu hk h1 h2 =>
    exact List.any_eq_true.mpr ⟨_, hu, by simp [useIsAddressTaken, hk]⟩
  | callArg hu hk hv =>
    exact List.any_eq_true.mpr ⟨_, hu, by simp [useIsAddressTaken, hk, hv]⟩
  | phiStep hu hk hnm hrec =>
    exact List.any_eq_true.mpr ⟨_, hu, by simp [useIsAddressTaken, hk]⟩
  | followStep hu hf hrec =>
    rename_i u
    refine List.any_eq_true.mpr ⟨u, hu, ?_⟩
    cases hk : kindOf env u <;> simp [useIsAddressTaken, hk]
    rw [hk] at hf
    simp [followKind] at hf

/-- Compare-only users leave the state untouched. -/
theorem processUsers_id_of_cmp (env : VEnv) (v : Nat) :
    ∀ (us : List Nat) (st : List Nat × List Nat),
      (∀ u ∈ us, kindOf env u = VKind.cmpInst) →
      processUsers env v us st = some st := by
  intro us
  induction us with
  | nil => intro st _; rfl
  | cons w us ih =>
    intro st h
    have hw : processUser env v w st = some st := by
      unfold processUser
      rw [h w (List.mem_cons_self w us)]
    rw [processUsers_cons_some env v w us st st hw]
    exact ih st (fun u hu => h u (List.mem_cons_of_mem w hu))

end IRAT

end Randezvous

/-- C2: `isReallyAddressTaken` answers `false` for a function whose address
is never used, and in particular for one whose only uses are compare
instructions; and whenever an escape chain exists — the function stored by
a store instruction or placed in the initializer of a global variable
other than `llvm.used`/`llvm.compiler.used` (or passed as a call argument),
reached through phis, aliases, casts, selects and non-compare constant
expressions — any answer the worklist walk returns is `true`. -/
theorem isReallyAddressTaken_spec (env : Randezvous.IRAT.VEnv)
    (f fuel : Nat) :
    (Randezvous.IRAT.usersOf env f = [] →
      Randezvous.IRAT.isReallyAddressTaken env fuel f = some false) ∧
    ((∀ u ∈ Randezvous.IRAT.usersOf env f,
        Randezvous.IRAT.kindOf env u = Randezvous.IRAT.VKind.cmpInst) →
      2 ≤ fuel →
      Randezvous.IRAT.isReallyAddressTaken env fuel f = some false) ∧
    (Randezvous.IRAT.EscAvoid env [] f →
      ∀ b, Randezvous.IRAT.isReallyAddressTaken env fuel f = some b →
        b = true) := by
  refine ⟨?_, ?_, ?_⟩
  · intro hnone
    unfold Randezvous.IRAT.isReallyAddressTaken
      Randezvous.IRAT.hasAddressTaken
    rw [hnone]
    rfl
  · intro hall hfuel
    unfold Randezvous.IRAT.isReallyAddressTaken
    by_cases hat : Randezvous.IRAT.hasAddressTaken env f = true
    · rw [if_pos hat]
      obtain ⟨m, rfl⟩ : ∃ m, fuel = m + 2 := ⟨fuel - 2, by omega⟩
      rw [show m + 2 = m + 1 + 1 from rfl, Randezvous.IRAT.iratLoop_cons,
        Randezvous.IRAT.processUsers_id_of_cmp env f
          (Randezvous.IRAT.usersOf env f) ([], []) hall]
      rfl
    · rw [if_neg hat]
  · intro hesc b hb
    have hat := Randezvous.IRAT.escAvoid_hasAddressTaken env f hesc
    unfold Randezvous.IRAT.isReallyAddressTaken at hb
    rw [if_pos hat] at hb
    exact Randezvous.IRAT.iratLoop_sound env fuel [f] []
      ⟨f, List.mem_cons_self f [], hesc⟩ b hb

/-- Concrete instances of C2: a function used only by a compare comes out
`false`; a function flowing through a cast into a store comes out `true`. -/
theorem isReallyAddressTaken_spec_witness :
    (Randezvous.IRAT.usersOf ⟨[], []⟩ 0 = [] ∧
      Randezvous.IRAT.isReallyAddressTaken ⟨[], []⟩ 1 0 = some false) ∧
    ((∀ u ∈ Randezvous.IRAT.usersOf
        ⟨[.otherUser, .cmpInst], [[1], []]⟩ 0,
      Randezvous.IRAT.kindOf ⟨[.otherUser, .cmpInst], [[1], []]⟩ u =
        Randezvous.IRAT.VKind.cmpInst) ∧
      Randezvous.IRAT.isReallyAddressTaken
        ⟨[.otherUser, .cmpInst], [[1], []]⟩ 2 0 = some false) ∧
    (Randezvous.IRAT.EscAvoid
        ⟨[.otherUser, .castInst, .storeInst], [[1], [2], []]⟩ [] 0 ∧
      ∀ b, Randezvous.IRAT.isReallyAddressTaken
          ⟨[.otherUser, .castInst, .storeInst], [[1], [2], []]⟩ 3 0 =
          some b → b = true) := by
  have hesc : Randezvous.IRAT.EscAvoid
      ⟨[.otherUser, .castInst, .storeInst], [[1], [2], []]⟩ [] 0 :=
    .followStep (u := 1) (by decide) (by decide)
      (.store (u := 2) (by decide) (by decide))
  exact ⟨⟨rfl, (isReallyAddressTaken_spec ⟨[], []⟩ 0 1).1 rfl⟩,
    ⟨by decide, (isReallyAddressTaken_spec
      ⟨[.otherUser, .cmpInst], [[1], []]⟩ 0 2).2.1 (by decide) (by decide)⟩,
    hesc, (isReallyAddressTaken_spec
      ⟨[.otherUser, .castInst, .storeInst], [[1], [2], []]⟩ 0 3).2.2 hesc⟩

